import Mathlib

/-!
# Detective Quest (`algoritmos_avancados.c`): a shallow embedding

The C program keeps three structures: the mansion map (a binary tree of
`Sala`), the collected clues (a binary search tree of `PistaNode`) and the
clue -> suspect table (`tabelaHash`, ten chained buckets of `HashNode`).

Conventions of the embedding

* A C string is the list of its bytes before the terminating NUL (`CStr`).
* A pointer to a node is the node itself; `NULL` is the constructor `nulo`.
  A function that updates a structure in place and returns its root returns
  the updated structure.
* Undefined behaviour is an outcome of its own. `strcpy` into a `char[50]`
  field copies a string of at most 49 bytes as it is; a longer string is
  written past the end of the field. `tabelaHash` has the indices 0 .. 9; any
  other index is outside the array. A `NULL` pointer cannot be dereferenced.
  A function that can do one of these returns an `Option`, and `none` means
  that it did: the structure that was being written has no defined value
  from there on (what a given compiler and memory layout leave in it is not
  modelled). The other variables of the program are followed as its
  statements assign them.
* Whether plain `char` is signed is implementation-defined; the functions that
  do arithmetic on `char` take it as the parameter `charSigned`.
-/

namespace DetectiveQuest

/-! ## Strings -/

/-- The bytes of a NUL-terminated C string, terminator excluded. -/
abbrev CStr := List (Fin 256)

/-- The sign of C `strcmp`: bytes are compared as `unsigned char`, the first
difference decides, and a proper prefix is smaller (its NUL meets a non-NUL
byte). The C standard fixes only the sign of the result, and the program only
tests it against zero. -/
def strcmp : CStr → CStr → Int
  | [], [] => 0
  | [], _ :: _ => -1
  | _ :: _, [] => 1
  | x :: xs, y :: ys =>
    if x < y then -1 else if y < x then 1 else strcmp xs ys

/-! ## The clue collection (binary search tree) -/

/-- `PistaNode*`: `nulo` is `NULL`, `no pista esquerda direita` a node. -/
inductive PistaNode where
  | nulo : PistaNode
  | no (pista : CStr) (esquerda direita : PistaNode) : PistaNode
  deriving DecidableEq, Repr

/-- `inserirPista(raiz, pista)`, lines 72-89. The `strcpy` of line 75 writes
`pista` and its NUL into the field `char pista[50]` of the new node: `none`
when they do not fit, that is when `pista` has 50 bytes or more. -/
def inserirPista : PistaNode → CStr → Option PistaNode
  | .nulo, pista =>
    if pista.length < 50 then some (.no pista .nulo .nulo) else none
  | .no p e d, pista =>
    if strcmp pista p < 0 then
      match inserirPista e pista with
      | some e2 => some (.no p e2 d)
      | none => none
    else if strcmp pista p > 0 then
      match inserirPista d pista with
      | some d2 => some (.no p e d2)
      | none => none
    else some (.no p e d)

/-- `exibirPistas(raiz)`, lines 97-103: the clues in the order in which the
in-order walk prints them (one `"- %s\n"` line each). -/
def exibirPistas : PistaNode → List CStr
  | .nulo => []
  | .no p e d => exibirPistas e ++ p :: exibirPistas d

/-- The collection after inserting the clues of `ps`, first to last, starting
from `raiz`; `none` when one of the insertions is. -/
def inserirTodas : PistaNode → List CStr → Option PistaNode
  | raiz, [] => some raiz
  | raiz, p :: ps =>
    match inserirPista raiz p with
    | some raiz2 => inserirTodas raiz2 ps
    | none => none

/-- The ordering invariant of the collection: at every node the clues of the
left subtree are strictly smaller and those of the right subtree strictly
greater (by `strcmp`). -/
def ordenada : PistaNode → Prop
  | .nulo => True
  | .no p e d =>
    (∀ x ∈ exibirPistas e, strcmp x p < 0) ∧
    (∀ x ∈ exibirPistas d, strcmp p x < 0) ∧ ordenada e ∧ ordenada d

/-- The ordering invariant can be checked by evaluation. -/
def ordenada.decidir : (t : PistaNode) → Decidable (ordenada t)
  | .nulo => .isTrue trivial
  | .no p e d =>
    have := ordenada.decidir e
    have := ordenada.decidir d
    by unfold ordenada; exact inferInstance

instance (t : PistaNode) : Decidable (ordenada t) := ordenada.decidir t

/-! ## The clue -> suspect table -/

/-- The macro `TAMANHO_TABELA_HASH`, line 5. -/
def TAMANHO_TABELA_HASH : Int := 10

/-- The value of a byte read through a plain `char` and promoted to `int`:
with a signed `char` the bytes 128..255 are the negative values -128..-1. -/
def charParaInt (charSigned : Bool) (b : Fin 256) : Int :=
  if charSigned && decide (128 ≤ b.val) then (b.val : Int) - 256 else (b.val : Int)

/-- A 32-bit `int` after an addition: the result is reduced into
-2^31 .. 2^31 - 1 (two's complement wrap-around, what the usual compilers
produce where C leaves signed overflow undefined). -/
def wrapInt (x : Int) : Int := (x + 2147483648) % 4294967296 - 2147483648

/-- The loop of `funcao_hash`, lines 119-121, from the current value of `soma`
over the bytes still to read. -/
def somaChars (charSigned : Bool) : Int → CStr → Int
  | soma, [] => soma
  | soma, c :: cs => somaChars charSigned (wrapInt (soma + charParaInt charSigned c)) cs

/-- `funcao_hash(pista)`, lines 117-123. C's `%` truncates toward zero
(`Int.tmod`). -/
def funcao_hash (charSigned : Bool) (pista : CStr) : Int :=
  Int.tmod (somaChars charSigned 0 pista) TAMANHO_TABELA_HASH

/-- A `HashNode` without its `proximo` pointer; a chain is the list of its
nodes, head first. -/
structure HashNode where
  pista : CStr
  suspeito : CStr
  deriving DecidableEq, Repr

/-- The global `tabelaHash[TAMANHO_TABELA_HASH]`: the chain stored in each of
its ten elements. -/
abbrev Tabela := Fin 10 → List HashNode

/-- An index inside the bounds of `tabelaHash`. -/
def indiceValido (i : Int) : Prop := 0 ≤ i ∧ i < TAMANHO_TABELA_HASH

instance (i : Int) : Decidable (indiceValido i) := by
  unfold indiceValido
  exact inferInstance

/-- The element of `tabelaHash` that the expression `tabelaHash[indice]`
names: `none` when `indice` is not one of 0 .. 9. -/
def indiceDaTabela (indice : Int) : Option (Fin 10) :=
  if h : 0 ≤ indice ∧ indice < 10 then some ⟨indice.toNat, by omega⟩ else none

/-- The table after the loop of `main`, lines 301-303: every bucket `NULL`. -/
def tabelaVazia : Tabela := fun _ => []

/-- `inserirNaHash(pista, suspeito)`, lines 132-140: the new node becomes the
head of the chain of its bucket. `none` when one of the two `strcpy` calls
of lines 135-136 does not fit its `char[50]` field, or when `indice` is
outside `tabelaHash` at lines 138-139. -/
def inserirNaHash (charSigned : Bool) (tabelaHash : Tabela) (pista suspeito : CStr) :
    Option Tabela :=
  if pista.length < 50 ∧ suspeito.length < 50 then
    match indiceDaTabela (funcao_hash charSigned pista) with
    | some indice =>
      some (fun i =>
        if i = indice then { pista := pista, suspeito := suspeito } :: tabelaHash i
        else tabelaHash i)
    | none => none
  else none

/-- The `while` loop of `encontrarSuspeito`, lines 151-156, from the node
`atual` on. `none` is the `NULL` returned at line 157. -/
def buscarNaLista (pista : CStr) : List HashNode → Option CStr
  | [] => none
  | atual :: proximo =>
    if strcmp atual.pista pista = 0 then some atual.suspeito
    else buscarNaLista pista proximo

/-- `encontrarSuspeito(pista)`, lines 148-158. The outer `none`: `indice` is
outside `tabelaHash` at line 150. Otherwise `some none` is the `NULL` of line
157 and `some (some s)` the suspect returned at line 153. -/
def encontrarSuspeito (charSigned : Bool) (tabelaHash : Tabela) (pista : CStr) :
    Option (Option CStr) :=
  match indiceDaTabela (funcao_hash charSigned pista) with
  | some indice => some (buscarNaLista pista (tabelaHash indice))
  | none => none

/-- A sequence of `inserirNaHash` calls, first to last, each given as the pair
(pista, suspeito); `none` when one of the calls is. -/
def inserirVarias (charSigned : Bool) : Tabela → List (CStr × CStr) → Option Tabela
  | tabelaHash, [] => some tabelaHash
  | tabelaHash, op :: ops =>
    match inserirNaHash charSigned tabelaHash op.1 op.2 with
    | some t => inserirVarias charSigned t ops
    | none => none

/-- A call `inserirNaHash(pista, suspeito)` that stays inside the two fields
and inside the table. -/
def insercaoValida (charSigned : Bool) (op : CStr × CStr) : Prop :=
  op.1.length < 50 ∧ op.2.length < 50 ∧ indiceValido (funcao_hash charSigned op.1)

instance (charSigned : Bool) (op : CStr × CStr) : Decidable (insercaoValida charSigned op) := by
  unfold insercaoValida
  exact inferInstance

/-! ## The verdict -/

/-- `contarPistasRecursivo(raizPistas, suspeitoAcusado, contador)`, lines
212-222; the result is the final value of `*contador` (at most one more per
node, so the `int` does not overflow). `none` when one of the calls of
`encontrarSuspeito` is. -/
def contarPistasRecursivo (charSigned : Bool) (tabelaHash : Tabela) :
    PistaNode → CStr → Int → Option Int
  | .nulo, _, contador => some contador
  | .no p e d, suspeitoAcusado, contador =>
    match encontrarSuspeito charSigned tabelaHash p with
    | none => none
    | some suspeitoDaPista =>
      let contador1 :=
        match suspeitoDaPista with
        | some s => if strcmp s suspeitoAcusado = 0 then contador + 1 else contador
        | none => contador
      match contarPistasRecursivo charSigned tabelaHash e suspeitoAcusado contador1 with
      | none => none
      | some contador2 =>
        contarPistasRecursivo charSigned tabelaHash d suspeitoAcusado contador2

/-- The three ways `verificarSuspeitoFinal` ends, each named after the message
it prints, with the value of `contagem` that the message shows. -/
inductive Veredito where
  /-- Line 233: Voce nao coletou nenhuma pista. Impossivel fazer uma acusacao. -/
  | impossivel : Veredito
  /-- Lines 257-258: Acusacao confirmada! -/
  | confirmada (contagem : Int) : Veredito
  /-- Lines 260-261: Evidencias insuficientes! -/
  | insuficiente (contagem : Int) : Veredito
  deriving DecidableEq, Repr

/-- `verificarSuspeitoFinal(raizPistas)`, lines 231-264. `acusado` is the
content of the buffer of that name once lines 244-249 have read the player's
line from the console (`fgets` stores at most 49 bytes of it). `none` when
the count is. -/
def verificarSuspeitoFinal (charSigned : Bool) (tabelaHash : Tabela)
    (raizPistas : PistaNode) (acusado : CStr) : Option Veredito :=
  match raizPistas with
  | .nulo => some .impossivel
  | .no p e d =>
    match contarPistasRecursivo charSigned tabelaHash (.no p e d) acusado 0 with
    | some contagem =>
      some (if contagem ≥ 2 then .confirmada contagem else .insuficiente contagem)
    | none => none

/-! ## The mansion map -/

/-- `Sala*`: `nulo` is `NULL`; `pista` is `none` for a `NULL` clue pointer. -/
inductive Sala where
  | nulo : Sala
  | no (nome : CStr) (pista : Option CStr) (esquerda direita : Sala) : Sala
  deriving DecidableEq, Repr

/-- `criarSala(nome, pista)`, lines 48-60. The `strcpy` of line 50 writes
`nome` and its NUL into the field `char nome[50]`: `none` when they do not
fit. The clue is copied into a block allocated for its length. -/
def criarSala (nome : CStr) (pista : Option CStr) : Option Sala :=
  if nome.length < 50 then some (.no nome pista .nulo .nulo) else none

/-- The assignments `sala->esquerda = e; sala->direita = d` with which `main`
wires the rooms it has created. -/
def Sala.ligar : Sala → Sala → Sala → Sala
  | .nulo, _, _ => .nulo
  | .no n p _ _, e, d => .no n p e d

/-- The two child pointers of a room. -/
inductive Lado where
  | esquerda : Lado
  | direita : Lado
  deriving DecidableEq, Repr

/-- A room of the map, named by the child pointers followed from the root.
The map is a tree, so a path names one room and one room has one path. -/
abbrev Caminho := List Lado

/-- The pointer `sala->esquerda` or `sala->direita`. -/
def Sala.filho : Sala → Lado → Sala
  | .nulo, _ => .nulo
  | .no _ _ e _, .esquerda => e
  | .no _ _ _ d, .direita => d

/-- The room reached from `mapa` along a path (`nulo` once the path leaves the
map). -/
def Sala.em (mapa : Sala) (c : Caminho) : Sala :=
  c.foldl Sala.filho mapa

/-- The field `sala->pista`. -/
def Sala.pistaDe : Sala → Option CStr
  | .nulo => none
  | .no _ p _ _ => p

/-- The field `sala->nome`. -/
def Sala.nomeDe : Sala → CStr
  | .nulo => []
  | .no n _ _ _ => n

/-- The map after `sala->pista = NULL` (lines 180-181) for the room at the
path; nothing else is written. -/
def Sala.limparPista : Sala → Caminho → Sala
  | .nulo, _ => .nulo
  | .no n _ e d, [] => .no n none e d
  | .no n p e d, .esquerda :: c => .no n p (Sala.limparPista e c) d
  | .no n p e d, .direita :: c => .no n p e (Sala.limparPista d c)

/-! ## Exploration -/

/-- The lines `explorarSalas` prints. -/
inductive Mensagem where
  /-- Line 174. -/
  | voceEstaEm (nome : CStr) : Mensagem
  /-- Line 178. -/
  | pistaEncontrada (pista : CStr) : Mensagem
  /-- Line 183. -/
  | nenhumaPista : Mensagem
  /-- Line 194. -/
  | semCaminhoEsquerda : Mensagem
  /-- Line 200. -/
  | semCaminhoDireita : Mensagem
  /-- Line 203. -/
  | exploracaoEncerrada : Mensagem
  /-- Line 206. -/
  | opcaoInvalida : Mensagem
  deriving DecidableEq, Repr

/-- The variables of `explorarSalas` at the top of its `while` loop, with the
structures they point into and the console. -/
structure Estado where
  /-- The whole map, as the heap holds it now. -/
  mapa : Sala
  /-- The pointer `salaAtual`, as the path from the root of the map. -/
  salaAtual : Caminho
  /-- The root of the clue collection, `*raizPistas_ptr`; `none` once a call
  of `inserirPista` has written past the field of a node. -/
  raizPistas : Option PistaNode
  /-- The local `escolha`. -/
  escolha : Fin 256
  /-- The bytes of standard input not yet read. -/
  entrada : CStr
  /-- What has been printed, oldest first. -/
  saida : List Mensagem
  deriving DecidableEq, Repr

/-- C `isspace` in the C locale: space and the bytes 9 .. 13. -/
def espaco (b : Fin 256) : Bool :=
  b.val == 32 || (decide (9 ≤ b.val) && decide (b.val ≤ 13))

/-- Lines 177-184: the clue of the current room, when it has one, is printed,
inserted in the collection with one call of `inserirPista`, and the room's
`pista` is set to `NULL`. -/
def coletar (s : Estado) : Estado :=
  match (s.mapa.em s.salaAtual).pistaDe with
  | some p =>
    { s with
      raizPistas := s.raizPistas.bind (fun raiz => inserirPista raiz p)
      mapa := s.mapa.limparPista s.salaAtual
      saida := s.saida ++ [.pistaEncontrada p] }
  | none => { s with saida := s.saida ++ [.nenhumaPista] }

/-- Line 188, `scanf(" %c", &escolha)`: white space is skipped and the next
byte stored in `escolha`; at end of input nothing is stored. -/
def lerEscolha (s : Estado) : Estado :=
  match s.entrada.dropWhile espaco with
  | [] => { s with entrada := [] }
  | c :: resto => { s with escolha := c, entrada := resto }

/-- How one pass through the body of the loop leaves it. -/
inductive Resultado where
  /-- Back at the top of the loop. -/
  | emCurso (s : Estado) : Resultado
  /-- The `break` of line 204. -/
  | encerrada (s : Estado) : Resultado
  /-- The pointer `salaAtual` is `NULL` at line 174 (`explorarSalas` was called
  with no map). -/
  | falha : Resultado
  deriving DecidableEq, Repr

/-- The state in which a pass leaves the loop or returns to its top. -/
def Resultado.estado : Resultado → Option Estado
  | .emCurso s => some s
  | .encerrada s => some s
  | .falha => none

/-- Lines 190-207: the branch on `escolha` (101 is e, 100 is d, 115 is s). -/
def mover (s : Estado) : Resultado :=
  if s.escolha = 101 then
    match (s.mapa.em s.salaAtual).filho .esquerda with
    | .no _ _ _ _ => .emCurso { s with salaAtual := s.salaAtual ++ [.esquerda] }
    | .nulo => .emCurso { s with saida := s.saida ++ [.semCaminhoEsquerda] }
  else if s.escolha = 100 then
    match (s.mapa.em s.salaAtual).filho .direita with
    | .no _ _ _ _ => .emCurso { s with salaAtual := s.salaAtual ++ [.direita] }
    | .nulo => .emCurso { s with saida := s.saida ++ [.semCaminhoDireita] }
  else if s.escolha = 115 then
    .encerrada { s with saida := s.saida ++ [.exploracaoEncerrada] }
  else
    .emCurso { s with saida := s.saida ++ [.opcaoInvalida] }

/-- One pass through the body of the `while (1)` loop, lines 173-207. -/
def iteracao (s : Estado) : Resultado :=
  match s.mapa.em s.salaAtual with
  | .nulo => .falha
  | .no nome _ _ _ =>
    mover (lerEscolha (coletar { s with saida := s.saida ++ [.voceEstaEm nome] }))

/-- At most `n` passes through the loop from the state `s`: `emCurso` when the
loop is still running after them. -/
def executar : Nat → Estado → Resultado
  | 0, s => .emCurso s
  | n + 1, s =>
    match iteracao s with
    | .emCurso s1 => executar n s1
    | r => r

/-- The state in which `explorarSalas(salaInicial, &raizPistas)` enters its
loop. `escolha` is not initialised by the program; its first value is the
parameter `escolha0`. -/
def estadoInicial (salaInicial : Sala) (raizPistas : PistaNode) (entrada : CStr)
    (escolha0 : Fin 256) : Estado :=
  { mapa := salaInicial, salaAtual := [], raizPistas := some raizPistas,
    escolha := escolha0, entrada := entrada, saida := [] }

/-- `explorarSalas(salaInicial, &raizPistas)`, lines 168-209, run for at most
`n` passes through its loop on the console input `entrada`. -/
def explorarSalas (salaInicial : Sala) (raizPistas : PistaNode) (entrada : CStr)
    (escolha0 : Fin 256) (n : Nat) : Resultado :=
  executar n (estadoInicial salaInicial raizPistas entrada escolha0)

/-! ## The game built by `main` -/

/-- The bytes of the literal Hall de Entrada. -/
def hallDeEntrada : CStr := [72, 97, 108, 108, 32, 100, 101, 32, 69, 110, 116, 114, 97, 100, 97]

/-- The bytes of the literal Sala de Estar. -/
def salaDeEstar : CStr := [83, 97, 108, 97, 32, 100, 101, 32, 69, 115, 116, 97, 114]

/-- The bytes of the literal Biblioteca. -/
def biblioteca : CStr := [66, 105, 98, 108, 105, 111, 116, 101, 99, 97]

/-- The bytes of the literal Quarto. -/
def quarto : CStr := [81, 117, 97, 114, 116, 111]

/-- The bytes of the literal Jardim de Inverno. -/
def jardimDeInverno : CStr :=
  [74, 97, 114, 100, 105, 109, 32, 100, 101, 32, 73, 110, 118, 101, 114, 110, 111]

/-- The bytes of the literal Cozinha. -/
def cozinha : CStr := [67, 111, 122, 105, 110, 104, 97]

/-- The bytes of the literal Castiçal; the source file is UTF-8, so the c with
cedilla is the two bytes 195 167. -/
def castical : CStr := [67, 97, 115, 116, 105, 195, 167, 97, 108]

/-- The bytes of the literal Corda. -/
def corda : CStr := [67, 111, 114, 100, 97]

/-- The bytes of the literal Veneno. -/
def veneno : CStr := [86, 101, 110, 101, 110, 111]

/-- The bytes of the literal Adaga. -/
def adaga : CStr := [65, 100, 97, 103, 97]

/-- The bytes of the literal Chave Inglesa. -/
def chaveInglesa : CStr := [67, 104, 97, 118, 101, 32, 73, 110, 103, 108, 101, 115, 97]

/-- The bytes of the literal Sr. Mostarda. -/
def srMostarda : CStr := [83, 114, 46, 32, 77, 111, 115, 116, 97, 114, 100, 97]

/-- The bytes of the literal Dona Branca. -/
def donaBranca : CStr := [68, 111, 110, 97, 32, 66, 114, 97, 110, 99, 97]

/-- The bytes of the literal Coronel Bigode. -/
def coronelBigode : CStr := [67, 111, 114, 111, 110, 101, 108, 32, 66, 105, 103, 111, 100, 101]

/-- Lines 306-311 of `main`: six calls of `criarSala` and the assignments
that wire the rooms. -/
def montarMapaDaMansao : Option Sala := do
  let hallSala ← criarSala hallDeEntrada none
  let estar ← criarSala salaDeEstar (some castical)
  let bib ← criarSala biblioteca (some corda)
  let quartoSala ← criarSala quarto (some veneno)
  let jardim ← criarSala jardimDeInverno (some adaga)
  let cozinhaSala ← criarSala cozinha (some chaveInglesa)
  pure (hallSala.ligar (estar.ligar quartoSala jardim) (bib.ligar cozinhaSala .nulo))

/-- The map assembled by `main`, lines 306-311: the value of
`montarMapaDaMansao`. -/
def mapaDaMansao : Sala :=
  .no hallDeEntrada none
    (.no salaDeEstar (some castical)
      (.no quarto (some veneno) .nulo .nulo)
      (.no jardimDeInverno (some adaga) .nulo .nulo))
    (.no biblioteca (some corda)
      (.no cozinha (some chaveInglesa) .nulo .nulo)
      .nulo)

/-- The five `inserirNaHash` calls of `main`, lines 314-318. -/
def baseDeConhecimento : List (CStr × CStr) :=
  [(castical, srMostarda), (corda, donaBranca), (veneno, srMostarda),
   (adaga, coronelBigode), (chaveInglesa, donaBranca)]

/-- The table `main` has built when the game starts. -/
def tabelaDoJogo (charSigned : Bool) : Option Tabela :=
  inserirVarias charSigned tabelaVazia baseDeConhecimento

/-! ## The map during exploration -/

/-- `m2` is `m1` with some clues taken: the same rooms under the same names
with the same children, and in each room the clue it had in `m1` or none. -/
def Sala.soPistasRemovidas : Sala → Sala → Prop
  | .nulo, .nulo => True
  | .no n1 p1 e1 d1, .no n2 p2 e2 d2 =>
    n2 = n1 ∧ (p2 = p1 ∨ p2 = none) ∧
      Sala.soPistasRemovidas e1 e2 ∧ Sala.soPistasRemovidas d1 d2
  | .nulo, .no _ _ _ _ => False
  | .no _ _ _ _, .nulo => False

/-- Every clue that the map holds has at most 49 bytes, so that it fits the
field `char pista[50]` of a node of the collection. -/
def Sala.pistasCabem : Sala → Prop
  | .nulo => True
  | .no _ p e d =>
    (∀ c, p = some c → c.length < 50) ∧ Sala.pistasCabem e ∧ Sala.pistasCabem d

/-- Whether the clues of a map fit can be checked by evaluation. -/
def Sala.pistasCabem.decidir : (m : Sala) → Decidable (Sala.pistasCabem m)
  | .nulo => .isTrue trivial
  | .no _ p e d =>
    have := Sala.pistasCabem.decidir e
    have := Sala.pistasCabem.decidir d
    have : Decidable (∀ c, p = some c → c.length < 50) :=
      match p with
      | none => .isTrue (fun _ h => by cases h)
      | some c0 =>
        if h0 : c0.length < 50 then .isTrue (fun c h => by cases h; exact h0)
        else .isFalse (fun h => h0 (h c0 rfl))
    by unfold Sala.pistasCabem; exact inferInstance

instance (m : Sala) : Decidable (Sala.pistasCabem m) := Sala.pistasCabem.decidir m

/-! ## The scenario of the specification -/

/-- The bytes of Hall. -/
def hall : CStr := [72, 97, 108, 108]

/-- The bytes of Study. -/
def study : CStr := [83, 116, 117, 100, 121]

/-- The bytes of Library. -/
def library : CStr := [76, 105, 98, 114, 97, 114, 121]

/-- The bytes of Candlestick. -/
def candlestick : CStr := [67, 97, 110, 100, 108, 101, 115, 116, 105, 99, 107]

/-- The bytes of Rope. -/
def rope : CStr := [82, 111, 112, 101]

/-- The bytes of Col. Mustard. -/
def colMustard : CStr := [67, 111, 108, 46, 32, 77, 117, 115, 116, 97, 114, 100]

/-- The bytes of Mrs. White. -/
def mrsWhite : CStr := [77, 114, 115, 46, 32, 87, 104, 105, 116, 101]

/-- The map of the scenario: Hall without a clue, Study with Candlestick on
the left, Library with Rope on the right. -/
def mapaDoCenario : Sala :=
  .no hall none (.no study (some candlestick) .nulo .nulo)
    (.no library (some rope) .nulo .nulo)

/-- The index of the scenario: Candlestick to Col. Mustard, Rope to Mrs.
White. -/
def tabelaDoCenario (charSigned : Bool) : Option Tabela :=
  inserirVarias charSigned tabelaVazia [(candlestick, colMustard), (rope, mrsWhite)]

/-- The console input e, newline, s, newline: left, then exit. -/
def entradaEsquerdaSair : CStr := [101, 10, 115, 10]

/-- The console input e, newline, e, newline, s, newline. -/
def entradaEsquerdaEsquerdaSair : CStr := [101, 10, 101, 10, 115, 10]

/-- The console input d, newline, e, newline, s, newline. -/
def entradaDireitaEsquerdaSair : CStr := [100, 10, 101, 10, 115, 10]

/-- The console input e, newline, d, newline, s, newline. -/
def entradaEsquerdaDireitaSair : CStr := [101, 10, 100, 10, 115, 10]

/-- The console input e, newline, and then end of input. -/
def entradaSemSair : CStr := [101, 10]

/-- The bytes of the one-letter string e with acute accent in UTF-8. -/
def eAgudo : CStr := [195, 169]

/-! ## Sample data -/

/-- A clue of 60 bytes, each the letter p. -/
def pistaLonga : CStr := List.replicate 60 112

/-- A key of 50 bytes, each the letter k. -/
def chaveLonga : CStr := List.replicate 50 107

/-- The bytes of Dorca: not a clue of the game, and the same bytes as Corda in
another order, so the same bucket. -/
def dorca : CStr := [68, 111, 114, 99, 97]

theorem strcmp_self (a : CStr) : strcmp a a = 0 := by
  induction a with
  | nil => rfl
  | cons x xs ih => simp [strcmp, ih]

theorem strcmp_eq_zero {a b : CStr} : strcmp a b = 0 ↔ a = b := by
  constructor
  · intro h
    induction a generalizing b with
    | nil =>
      cases b with
      | nil => rfl
      | cons y ys => simp [strcmp] at h
    | cons x xs ih =>
      cases b with
      | nil => simp [strcmp] at h
      | cons y ys =>
        simp only [strcmp] at h
        by_cases h1 : x < y
        · simp [h1] at h
        · by_cases h2 : y < x
          · simp [h1, h2] at h
          · simp only [h1, h2, if_false] at h
            have hxy : x = y := le_antisymm (not_lt.mp h2) (not_lt.mp h1)
            rw [hxy, ih h]
  · rintro rfl
    exact strcmp_self a

theorem strcmp_neg_iff_pos (a b : CStr) : strcmp a b < 0 ↔ 0 < strcmp b a := by
  induction a generalizing b with
  | nil => cases b <;> simp [strcmp]
  | cons x xs ih =>
    cases b with
    | nil => simp [strcmp]
    | cons y ys =>
      simp only [strcmp]
      by_cases h1 : x < y
      · have h2 : ¬ y < x := not_lt.mpr (le_of_lt h1)
        simp [h1, h2]
      · by_cases h2 : y < x
        · simp [h1, h2]
        · simp [h1, h2, ih]

theorem strcmp_trans {a b c : CStr} (hab : strcmp a b < 0) (hbc : strcmp b c < 0) :
    strcmp a c < 0 := by
  induction a generalizing b c with
  | nil =>
    cases c with
    | nil => cases b <;> simp [strcmp] at hab hbc
    | cons z zs => simp [strcmp]
  | cons x xs ih =>
    cases b with
    | nil => simp [strcmp] at hab
    | cons y ys =>
      cases c with
      | nil => simp [strcmp] at hbc
      | cons z zs =>
        simp only [strcmp] at hab hbc ⊢
        by_cases hxy : x < y
        · by_cases hyz : y < z
          · simp [lt_trans hxy hyz]
          · by_cases hzy : z < y
            · simp [hyz, hzy] at hbc
            · have : y = z := le_antisymm (not_lt.mp hzy) (not_lt.mp hyz)
              subst this
              simp [hxy]
        · by_cases hyx : y < x
          · simp [hxy, hyx] at hab
          · have : x = y := le_antisymm (not_lt.mp hyx) (not_lt.mp hxy)
            subst this
            simp only [hxy, if_false] at hab
            by_cases hyz : x < z
            · simp [hyz]
            · by_cases hzy : z < x
              · simp [hyz, hzy] at hbc
              · simp only [hyz, hzy, if_false] at hbc ⊢
                exact ih hab hbc

theorem strcmp_irrefl (a : CStr) : ¬ strcmp a a < 0 := by
  simp [strcmp_self]

theorem strcmp_pos_iff_neg (a b : CStr) : 0 < strcmp a b ↔ strcmp b a < 0 :=
  (strcmp_neg_iff_pos b a).symm

theorem strcmp_ne_of_neg {a b : CStr} (h : strcmp a b < 0) : a ≠ b := by
  rintro rfl
  exact strcmp_irrefl a h

/-- The three outcomes of a comparison: smaller, greater, or the same string. -/
theorem strcmp_casos (a b : CStr) : strcmp a b < 0 ∨ 0 < strcmp a b ∨ a = b := by
  rcases lt_trichotomy (strcmp a b) 0 with h | h | h
  · exact Or.inl h
  · exact Or.inr (Or.inr (strcmp_eq_zero.mp h))
  · exact Or.inr (Or.inl h)

/-! ## Facts about the clue collection -/

/-- A clue of at most 49 bytes is always inserted: the call returns. -/
theorem inserirPista_isSome (t : PistaNode) (c : CStr) (h : c.length < 50) :
    ∃ t2, inserirPista t c = some t2 := by
  induction t with
  | nulo => exact ⟨.no c .nulo .nulo, by simp only [inserirPista, if_pos h]⟩
  | no p e d ihe ihd =>
    simp only [inserirPista]
    by_cases h1 : strcmp c p < 0
    · obtain ⟨e2, he2⟩ := ihe
      rw [if_pos h1, he2]
      exact ⟨_, rfl⟩
    · rw [if_neg h1]
      by_cases h2 : strcmp c p > 0
      · obtain ⟨d2, hd2⟩ := ihd
        rw [if_pos h2, hd2]
        exact ⟨_, rfl⟩
      · rw [if_neg h2]
        exact ⟨_, rfl⟩

/-- The three ways a call on a node returns: into the left subtree, into the
right subtree, or on the node itself. -/
theorem inserirPista_no_eq_some {p : CStr} {e d : PistaNode} {c : CStr} {t2 : PistaNode}
    (h : inserirPista (.no p e d) c = some t2) :
    (strcmp c p < 0 ∧ ∃ e2, inserirPista e c = some e2 ∧ t2 = .no p e2 d) ∨
    (0 < strcmp c p ∧ ∃ d2, inserirPista d c = some d2 ∧ t2 = .no p e d2) ∨
    (c = p ∧ t2 = .no p e d) := by
  simp only [inserirPista] at h
  by_cases h1 : strcmp c p < 0
  · rw [if_pos h1] at h
    cases hi : inserirPista e c with
    | none => simp [hi] at h
    | some e2 =>
      simp only [hi, Option.some.injEq] at h
      exact Or.inl ⟨h1, e2, rfl, h.symm⟩
  · rw [if_neg h1] at h
    by_cases h2 : strcmp c p > 0
    · rw [if_pos h2] at h
      cases hi : inserirPista d c with
      | none => simp [hi] at h
      | some d2 =>
        simp only [hi, Option.some.injEq] at h
        exact Or.inr (Or.inl ⟨h2, d2, rfl, h.symm⟩)
    · rw [if_neg h2] at h
      simp only [Option.some.injEq] at h
      rcases strcmp_casos c p with h3 | h3 | h3
      · exact absurd h3 h1
      · exact absurd h3 h2
      · exact Or.inr (Or.inr ⟨h3, h.symm⟩)

theorem inserirPista_nulo_eq_some {c : CStr} {t2 : PistaNode}
    (h : inserirPista .nulo c = some t2) : c.length < 50 ∧ t2 = .no c .nulo .nulo := by
  simp only [inserirPista] at h
  by_cases hc : c.length < 50
  · rw [if_pos hc] at h
    simp only [Option.some.injEq] at h
    exact ⟨hc, h.symm⟩
  · rw [if_neg hc] at h
    cases h

theorem mem_exibirPistas_inserirPista {t t2 : PistaNode} {c : CStr}
    (h : inserirPista t c = some t2) (x : CStr) :
    x ∈ exibirPistas t2 ↔ x = c ∨ x ∈ exibirPistas t := by
  induction t generalizing t2 with
  | nulo =>
    obtain ⟨_, rfl⟩ := inserirPista_nulo_eq_some h
    simp [exibirPistas]
  | no p e d ihe ihd =>
    rcases inserirPista_no_eq_some h with ⟨_, e2, he2, rfl⟩ | ⟨_, d2, hd2, rfl⟩ | ⟨rfl, rfl⟩
    · simp only [exibirPistas, List.mem_append, List.mem_cons, ihe he2]
      tauto
    · simp only [exibirPistas, List.mem_append, List.mem_cons, ihd hd2]
      tauto
    · simp only [exibirPistas, List.mem_append, List.mem_cons]
      tauto

theorem pairwise_exibirPistas_inserirPista {t t2 : PistaNode} {c : CStr}
    (hi : inserirPista t c = some t2)
    (h : List.Pairwise (fun a b => strcmp a b < 0) (exibirPistas t)) :
    List.Pairwise (fun a b => strcmp a b < 0) (exibirPistas t2) := by
  induction t generalizing t2 with
  | nulo =>
    obtain ⟨_, rfl⟩ := inserirPista_nulo_eq_some hi
    simp [exibirPistas]
  | no p e d ihe ihd =>
    simp only [exibirPistas, List.pairwise_append, List.pairwise_cons, List.mem_cons] at h
    obtain ⟨he, ⟨hpd, hd⟩, hed⟩ := h
    rcases inserirPista_no_eq_some hi with ⟨h1, e2, he2, rfl⟩ | ⟨h2, d2, hd2, rfl⟩ | ⟨rfl, rfl⟩
    · simp only [exibirPistas, List.pairwise_append, List.pairwise_cons, List.mem_cons,
        mem_exibirPistas_inserirPista he2]
      refine ⟨ihe he2 he, ⟨hpd, hd⟩, ?_⟩
      rintro a (rfl | ha) b (rfl | hb)
      · exact h1
      · exact strcmp_trans h1 (hpd b hb)
      · exact hed a ha b (Or.inl rfl)
      · exact hed a ha b (Or.inr hb)
    · have h2' : strcmp p c < 0 := (strcmp_pos_iff_neg c p).mp h2
      simp only [exibirPistas, List.pairwise_append, List.pairwise_cons, List.mem_cons,
        mem_exibirPistas_inserirPista hd2]
      refine ⟨he, ⟨?_, ihd hd2 hd⟩, ?_⟩
      · rintro b (rfl | hb)
        · exact h2'
        · exact hpd b hb
      · rintro a ha b (rfl | rfl | hb)
        · exact hed a ha b (Or.inl rfl)
        · exact strcmp_trans (hed a ha p (Or.inl rfl)) h2'
        · exact hed a ha b (Or.inr hb)
    · simp only [exibirPistas, List.pairwise_append, List.pairwise_cons, List.mem_cons]
      exact ⟨he, ⟨hpd, hd⟩, hed⟩

theorem inserirTodas_cons_eq_some {t t2 : PistaNode} {c : CStr} {cs : List CStr}
    (h : inserirTodas t (c :: cs) = some t2) :
    ∃ t1, inserirPista t c = some t1 ∧ inserirTodas t1 cs = some t2 := by
  simp only [inserirTodas] at h
  cases hi : inserirPista t c with
  | none => simp [hi] at h
  | some t1 => exact ⟨t1, rfl, by simpa [hi] using h⟩

theorem inserirTodas_isSome (ps : List CStr) (t : PistaNode) (h : ∀ c ∈ ps, c.length < 50) :
    ∃ t2, inserirTodas t ps = some t2 := by
  induction ps generalizing t with
  | nil => exact ⟨t, rfl⟩
  | cons c cs ih =>
    obtain ⟨t1, h1⟩ := inserirPista_isSome t c (h c (List.mem_cons_self _ _))
    obtain ⟨t2, h2⟩ := ih t1 (fun x hx => h x (List.mem_cons_of_mem _ hx))
    exact ⟨t2, by simp only [inserirTodas, h1, h2]⟩

theorem pairwise_exibirPistas_inserirTodas (ps : List CStr) {t t2 : PistaNode}
    (hi : inserirTodas t ps = some t2)
    (h : List.Pairwise (fun a b => strcmp a b < 0) (exibirPistas t)) :
    List.Pairwise (fun a b => strcmp a b < 0) (exibirPistas t2) := by
  induction ps generalizing t with
  | nil =>
    simp only [inserirTodas, Option.some.injEq] at hi
    rw [← hi]
    exact h
  | cons c cs ih =>
    obtain ⟨t1, h1, h2⟩ := inserirTodas_cons_eq_some hi
    exact ih h2 (pairwise_exibirPistas_inserirPista h1 h)

theorem mem_exibirPistas_inserirTodas (ps : List CStr) {t t2 : PistaNode}
    (hi : inserirTodas t ps = some t2) (x : CStr) :
    x ∈ exibirPistas t2 ↔ x ∈ ps ∨ x ∈ exibirPistas t := by
  induction ps generalizing t with
  | nil =>
    simp only [inserirTodas, Option.some.injEq] at hi
    rw [← hi]
    simp
  | cons c cs ih =>
    obtain ⟨t1, h1, h2⟩ := inserirTodas_cons_eq_some hi
    rw [ih h2, mem_exibirPistas_inserirPista h1, List.mem_cons]
    tauto

theorem nodup_of_pairwise_strcmp {l : List CStr}
    (h : List.Pairwise (fun a b => strcmp a b < 0) l) : l.Nodup :=
  h.imp (fun hab => strcmp_ne_of_neg hab)

/-- C1, for clues that fit the field `char pista[50]` of a node: whatever
clues of at most 49 bytes are inserted with `inserirPista`, in whatever order,
starting from the empty collection, every insertion returns, and the in-order
walk of `exibirPistas` lists exactly the inserted clues, in strictly ascending
`strcmp` order, and so lists none of them twice. -/
theorem exibirPistas_estritamente_crescente (ps : List CStr)
    (h : ∀ c ∈ ps, c.length < 50) :
    ∃ t, inserirTodas .nulo ps = some t ∧
      List.Pairwise (fun a b => strcmp a b < 0) (exibirPistas t) ∧
      (exibirPistas t).Nodup ∧
      ∀ x, x ∈ exibirPistas t ↔ x ∈ ps := by
  obtain ⟨t, ht⟩ := inserirTodas_isSome ps .nulo h
  have hp := pairwise_exibirPistas_inserirTodas ps ht (by simp [exibirPistas])
  refine ⟨t, ht, hp, nodup_of_pairwise_strcmp hp, fun x => ?_⟩
  simp [mem_exibirPistas_inserirTodas ps ht, exibirPistas]

/-- A clue of 60 bytes does not fit the field `char pista[50]` of a node: the
`strcpy` of line 75 writes past the field, and the two insertions of that
clue into the empty collection give no collection whose listing is strictly
ascending. -/
theorem exibirPistas_estritamente_crescente_contraexemplo :
    pistaLonga.length = 60 ∧
    inserirTodas .nulo [pistaLonga, pistaLonga] = none ∧
    ¬ ∃ t, inserirTodas .nulo [pistaLonga, pistaLonga] = some t ∧
      List.Pairwise (fun a b => strcmp a b < 0) (exibirPistas t) := by
  have h : inserirTodas .nulo [pistaLonga, pistaLonga] = none := by decide
  refine ⟨by decide, h, ?_⟩
  rintro ⟨t, ht, _⟩
  rw [h] at ht
  cases ht

theorem inserirPista_inserirPista {t t1 : PistaNode} {c : CStr}
    (h : inserirPista t c = some t1) : inserirPista t1 c = some t1 := by
  induction t generalizing t1 with
  | nulo =>
    obtain ⟨_, rfl⟩ := inserirPista_nulo_eq_some h
    simp [inserirPista, strcmp_self]
  | no p e d ihe ihd =>
    rcases inserirPista_no_eq_some h with ⟨h1, e2, he2, rfl⟩ | ⟨h2, d2, hd2, rfl⟩ | ⟨rfl, rfl⟩
    · simp only [inserirPista, if_pos h1, ihe he2]
    · have h1 : ¬ strcmp c p < 0 := by omega
      simp only [inserirPista, if_neg h1, if_pos h2, ihd hd2]
    · simp [inserirPista, strcmp_self]

theorem inserirPista_de_presente (t : PistaNode) (c : CStr) (ho : ordenada t)
    (hc : c ∈ exibirPistas t) : inserirPista t c = some t := by
  induction t with
  | nulo => simp [exibirPistas] at hc
  | no p e d ihe ihd =>
    obtain ⟨hl, hr, hoe, hod⟩ := ho
    simp only [exibirPistas, List.mem_append, List.mem_cons] at hc
    rcases hc with hc | rfl | hc
    · have h1 := hl c hc
      simp only [inserirPista, if_pos h1, ihe hoe hc]
    · simp [inserirPista, strcmp_self]
    · have h2 := hr c hc
      have h3 : strcmp c p > 0 := (strcmp_neg_iff_pos p c).mp h2
      have h1 : ¬ strcmp c p < 0 := by omega
      simp only [inserirPista, if_neg h1, if_pos h3, ihd hod hc]

/-- C2, for clues that fit the field `char pista[50]` of a node:
`inserirPista` is idempotent on clues of at most 49 bytes. Such a clue is
always inserted, and whenever an insertion returns, inserting the same clue
again into the tree it returned gives back that very tree; a clue already
stored in a collection that satisfies the ordering invariant is inserted
without any change to the collection. -/
theorem inserirPista_idempotente (t : PistaNode) (c : CStr) :
    (c.length < 50 → ∃ t1, inserirPista t c = some t1 ∧ inserirPista t1 c = some t1) ∧
    (∀ t1, inserirPista t c = some t1 → inserirPista t1 c = some t1) ∧
    (ordenada t → c ∈ exibirPistas t → inserirPista t c = some t) := by
  refine ⟨fun hc => ?_, fun t1 h => inserirPista_inserirPista h,
    inserirPista_de_presente t c⟩
  obtain ⟨t1, h1⟩ := inserirPista_isSome t c hc
  exact ⟨t1, h1, inserirPista_inserirPista h1⟩

/-- The insertion of a clue of 60 bytes into the empty collection writes past
the field `char pista[50]` of the new node, so it returns no tree that a
second insertion of the same clue could leave unchanged. -/
theorem inserirPista_idempotente_contraexemplo :
    inserirPista .nulo pistaLonga = none ∧
    ¬ ∃ t1, inserirPista .nulo pistaLonga = some t1 ∧
      inserirPista t1 pistaLonga = some t1 := by
  have h : inserirPista .nulo pistaLonga = none := by decide
  refine ⟨h, ?_⟩
  rintro ⟨t1, h1, _⟩
  rw [h] at h1
  cases h1

/-! ## Insertion into an ordered collection -/

theorem ordenada_inserirPista {t t2 : PistaNode} {c : CStr}
    (h : inserirPista t c = some t2) (ho : ordenada t) : ordenada t2 := by
  induction t generalizing t2 with
  | nulo =>
    obtain ⟨_, rfl⟩ := inserirPista_nulo_eq_some h
    simp [ordenada, exibirPistas]
  | no p e d ihe ihd =>
    obtain ⟨hl, hr, hoe, hod⟩ := ho
    rcases inserirPista_no_eq_some h with ⟨h1, e2, he2, rfl⟩ | ⟨h2, d2, hd2, rfl⟩ | ⟨rfl, rfl⟩
    · refine ⟨fun x hx => ?_, hr, ihe he2 hoe, hod⟩
      rcases (mem_exibirPistas_inserirPista he2 x).mp hx with rfl | hx
      · exact h1
      · exact hl x hx
    · refine ⟨hl, fun x hx => ?_, hoe, ihd hd2 hod⟩
      rcases (mem_exibirPistas_inserirPista hd2 x).mp hx with rfl | hx
      · exact (strcmp_pos_iff_neg x p).mp h2
      · exact hr x hx
    · exact ⟨hl, hr, hoe, hod⟩

theorem exibirPistas_inserirPista_nova {t t2 : PistaNode} {c : CStr}
    (h : inserirPista t c = some t2) (ho : ordenada t) (hc : c ∉ exibirPistas t) :
    ∃ l1 l2, exibirPistas t = l1 ++ l2 ∧ exibirPistas t2 = l1 ++ c :: l2 ∧
      (∀ x ∈ l1, strcmp x c < 0) ∧ (∀ x ∈ l2, strcmp c x < 0) := by
  induction t generalizing t2 with
  | nulo =>
    obtain ⟨_, rfl⟩ := inserirPista_nulo_eq_some h
    exact ⟨[], [], rfl, rfl, by simp, by simp⟩
  | no p e d ihe ihd =>
    obtain ⟨hl, hr, hoe, hod⟩ := ho
    simp only [exibirPistas, List.mem_append, List.mem_cons, not_or] at hc
    obtain ⟨hce, hcp, hcd⟩ := hc
    rcases inserirPista_no_eq_some h with ⟨h1, e2, he2, rfl⟩ | ⟨h2, d2, hd2, rfl⟩ | ⟨h3, _⟩
    · obtain ⟨l1, l2, e1, e3, b1, b2⟩ := ihe he2 hoe hce
      refine ⟨l1, l2 ++ p :: exibirPistas d, ?_, ?_, b1, ?_⟩
      · simp [exibirPistas, e1]
      · simp [exibirPistas, e3]
      · intro x hx
        simp only [List.mem_append, List.mem_cons] at hx
        rcases hx with hx | rfl | hx
        · exact b2 x hx
        · exact h1
        · exact strcmp_trans h1 (hr x hx)
    · have h2' : strcmp p c < 0 := (strcmp_pos_iff_neg c p).mp h2
      obtain ⟨l1, l2, e1, e3, b1, b2⟩ := ihd hd2 hod hcd
      refine ⟨exibirPistas e ++ p :: l1, l2, ?_, ?_, ?_, b2⟩
      · simp [exibirPistas, e1]
      · simp [exibirPistas, e3]
      · intro x hx
        simp only [List.mem_append, List.mem_cons] at hx
        rcases hx with hx | rfl | hx
        · exact strcmp_trans (hl x hx) h2'
        · exact h2'
        · exact b1 x hx
    · exact absurd h3 hcp

/-- C14, for clues that fit the field `char pista[50]` of a node: for a
collection that satisfies the ordering invariant and any clue `c`: when `c` is
already stored, `inserirPista` returns and the in-order listing after it is
the listing before; when `c` is not stored and has at most 49 bytes,
`inserirPista` returns, the listing before splits into the clues smaller than
`c` and the clues greater than `c`, and the listing after is the first part,
then `c`, then the second part, so no stored clue is lost or moved; and
whenever `inserirPista` returns, the collection still satisfies the ordering
invariant. -/
theorem exibirPistas_inserirPista_ordenada (t : PistaNode) (c : CStr) (ho : ordenada t) :
    (c ∈ exibirPistas t →
      ∃ t2, inserirPista t c = some t2 ∧ exibirPistas t2 = exibirPistas t) ∧
    (c ∉ exibirPistas t → c.length < 50 →
      ∃ t2 l1 l2, inserirPista t c = some t2 ∧ exibirPistas t = l1 ++ l2 ∧
        exibirPistas t2 = l1 ++ c :: l2 ∧
        (∀ x ∈ l1, strcmp x c < 0) ∧ (∀ x ∈ l2, strcmp c x < 0)) ∧
    (∀ t2, inserirPista t c = some t2 → ordenada t2) := by
  refine ⟨fun hc => ⟨t, inserirPista_de_presente t c ho hc, rfl⟩, fun hc hlen => ?_,
    fun t2 h => ordenada_inserirPista h ho⟩
  obtain ⟨t2, h2⟩ := inserirPista_isSome t c hlen
  obtain ⟨l1, l2, e1, e2, b1, b2⟩ := exibirPistas_inserirPista_nova h2 ho hc
  exact ⟨t2, l1, l2, h2, e1, e2, b1, b2⟩

/-- The empty collection is ordered and does not store the clue of 60 bytes,
yet the insertion of that clue writes past the field `char pista[50]` of the
new node and leaves no collection whose listing has the clue at its sorted
position. -/
theorem exibirPistas_inserirPista_ordenada_contraexemplo :
    ordenada .nulo ∧ pistaLonga ∉ exibirPistas .nulo ∧
    inserirPista .nulo pistaLonga = none ∧
    ¬ ∃ t2, inserirPista .nulo pistaLonga = some t2 ∧
      exibirPistas t2 = [] ++ pistaLonga :: [] := by
  have h : inserirPista .nulo pistaLonga = none := by decide
  refine ⟨by decide, by decide, h, ?_⟩
  rintro ⟨t2, h2, _⟩
  rw [h] at h2
  cases h2

/-! ## Facts about the table -/

theorem indiceDaTabela_isSome {i : Int} (h : indiceValido i) :
    ∃ j, indiceDaTabela i = some j := by
  have h2 : 0 ≤ i ∧ i < 10 := h
  simp only [indiceDaTabela, dif_pos h2]
  exact ⟨_, rfl⟩

theorem inserirNaHash_eq_some {cs : Bool} {t t2 : Tabela} {k v : CStr}
    (h : inserirNaHash cs t k v = some t2) :
    k.length < 50 ∧ v.length < 50 ∧
    ∃ j, indiceDaTabela (funcao_hash cs k) = some j ∧
      t2 = fun i => if i = j then { pista := k, suspeito := v } :: t i else t i := by
  unfold inserirNaHash at h
  by_cases hl : k.length < 50 ∧ v.length < 50
  · rw [if_pos hl] at h
    cases hj : indiceDaTabela (funcao_hash cs k) with
    | none => simp [hj] at h
    | some j =>
      simp only [hj, Option.some.injEq] at h
      exact ⟨hl.1, hl.2, j, rfl, h.symm⟩
  · rw [if_neg hl] at h
    cases h

theorem inserirNaHash_isSome (cs : Bool) (t : Tabela) {k v : CStr}
    (h : insercaoValida cs (k, v)) : ∃ t2, inserirNaHash cs t k v = some t2 := by
  obtain ⟨h1, h2, h3⟩ := h
  obtain ⟨j, hj⟩ := indiceDaTabela_isSome h3
  have hl : k.length < 50 ∧ v.length < 50 := ⟨h1, h2⟩
  have hj2 : indiceDaTabela (funcao_hash cs k) = some j := hj
  simp only [inserirNaHash, if_pos hl, hj2]
  exact ⟨_, rfl⟩

theorem buscarNaLista_none {k : CStr} {l : List HashNode} (h : ∀ n ∈ l, n.pista ≠ k) :
    buscarNaLista k l = none := by
  induction l with
  | nil => rfl
  | cons n ns ih =>
    have hn : ¬ strcmp n.pista k = 0 := fun h0 =>
      h n (List.mem_cons_self _ _) (strcmp_eq_zero.mp h0)
    simp only [buscarNaLista, hn, if_false]
    exact ih (fun m hm => h m (List.mem_cons_of_mem _ hm))

theorem encontrarSuspeito_inserirNaHash_mesma {cs : Bool} {t t2 : Tabela} {k v : CStr}
    (h : inserirNaHash cs t k v = some t2) :
    encontrarSuspeito cs t2 k = some (some v) := by
  obtain ⟨_, _, j, hj, rfl⟩ := inserirNaHash_eq_some h
  simp [encontrarSuspeito, hj, buscarNaLista, strcmp_self]

theorem encontrarSuspeito_inserirNaHash_outra {cs : Bool} {t t2 : Tabela} {k k1 v1 : CStr}
    (h : inserirNaHash cs t k1 v1 = some t2) (hne : k1 ≠ k) :
    encontrarSuspeito cs t2 k = encontrarSuspeito cs t k := by
  obtain ⟨_, _, j, hj, rfl⟩ := inserirNaHash_eq_some h
  unfold encontrarSuspeito
  cases hi : indiceDaTabela (funcao_hash cs k) with
  | none => rfl
  | some i =>
    by_cases hij : i = j
    · have hn : ¬ strcmp k1 k = 0 := fun h0 => hne (strcmp_eq_zero.mp h0)
      simp [hij, buscarNaLista, hn]
    · simp [hij]

theorem inserirVarias_cons_eq_some {cs : Bool} {t t2 : Tabela} {op : CStr × CStr}
    {ops : List (CStr × CStr)} (h : inserirVarias cs t (op :: ops) = some t2) :
    ∃ t1, inserirNaHash cs t op.1 op.2 = some t1 ∧ inserirVarias cs t1 ops = some t2 := by
  simp only [inserirVarias] at h
  cases hi : inserirNaHash cs t op.1 op.2 with
  | none => simp [hi] at h
  | some t1 => exact ⟨t1, rfl, by simpa [hi] using h⟩

theorem inserirVarias_isSome (cs : Bool) (ops : List (CStr × CStr)) (t : Tabela)
    (h : ∀ op ∈ ops, insercaoValida cs op) : ∃ t2, inserirVarias cs t ops = some t2 := by
  induction ops generalizing t with
  | nil => exact ⟨t, rfl⟩
  | cons op ops ih =>
    obtain ⟨t1, h1⟩ := inserirNaHash_isSome cs t (h op (List.mem_cons_self _ _))
    obtain ⟨t2, h2⟩ := ih t1 (fun o ho => h o (List.mem_cons_of_mem _ ho))
    exact ⟨t2, by simp only [inserirVarias, h1, h2]⟩

theorem inserirVarias_append_eq_some {cs : Bool} {t t2 : Tabela}
    {xs ys : List (CStr × CStr)} (h : inserirVarias cs t (xs ++ ys) = some t2) :
    ∃ t1, inserirVarias cs t xs = some t1 ∧ inserirVarias cs t1 ys = some t2 := by
  induction xs generalizing t with
  | nil => exact ⟨t, rfl, h⟩
  | cons x xs ih =>
    obtain ⟨t0, h0, h1⟩ := inserirVarias_cons_eq_some (show
      inserirVarias cs t (x :: (xs ++ ys)) = some t2 from h)
    obtain ⟨t1, h2, h3⟩ := ih h1
    exact ⟨t1, by simp only [inserirVarias, h0, h2], h3⟩

theorem encontrarSuspeito_inserirVarias_outras {cs : Bool} (ops : List (CStr × CStr))
    {t t2 : Tabela} {k : CStr} (hi : inserirVarias cs t ops = some t2)
    (h : ∀ op ∈ ops, op.1 ≠ k) :
    encontrarSuspeito cs t2 k = encontrarSuspeito cs t k := by
  induction ops generalizing t with
  | nil =>
    simp only [inserirVarias, Option.some.injEq] at hi
    rw [hi]
  | cons op ops ih =>
    obtain ⟨t1, h1, h2⟩ := inserirVarias_cons_eq_some hi
    rw [ih h2 (fun o ho => h o (List.mem_cons_of_mem _ ho)),
      encontrarSuspeito_inserirNaHash_outra h1 (h op (List.mem_cons_self _ _))]

theorem mem_inserirNaHash_of_mem {cs : Bool} {t t2 : Tabela} {k v : CStr}
    (hi : inserirNaHash cs t k v = some t2) {n : HashNode} {i : Fin 10} (h : n ∈ t i) :
    n ∈ t2 i := by
  obtain ⟨_, _, j, _, rfl⟩ := inserirNaHash_eq_some hi
  show n ∈ (if i = j then _ else _)
  split_ifs
  · exact List.mem_cons_of_mem _ h
  · exact h

theorem mem_inserirVarias_of_mem {cs : Bool} (ops : List (CStr × CStr)) {t t2 : Tabela}
    (hi : inserirVarias cs t ops = some t2) {n : HashNode} {i : Fin 10} (h : n ∈ t i) :
    n ∈ t2 i := by
  induction ops generalizing t with
  | nil =>
    simp only [inserirVarias, Option.some.injEq] at hi
    rw [← hi]
    exact h
  | cons op ops ih =>
    obtain ⟨t1, h1, h2⟩ := inserirVarias_cons_eq_some hi
    exact ih h2 (mem_inserirNaHash_of_mem h1 h)

/-- C3, for calls that stay inside the fields of a node and inside the table:
after any sequence of `inserirNaHash` calls on the empty table, each with a
key and a suspect of at most 49 bytes and a key whose index is inside the
table, every call returns, and `encontrarSuspeito` returns `NULL` for every
key whose index is inside the table and that differs from all the inserted
keys, whichever bucket that key falls in. -/
theorem encontrarSuspeito_nunca_inserida (cs : Bool) (ops : List (CStr × CStr)) (k : CStr)
    (hv : ∀ op ∈ ops, insercaoValida cs op) (hk : indiceValido (funcao_hash cs k))
    (h : ∀ op ∈ ops, op.1 ≠ k) :
    ∃ t, inserirVarias cs tabelaVazia ops = some t ∧
      encontrarSuspeito cs t k = some none := by
  obtain ⟨t, ht⟩ := inserirVarias_isSome cs ops tabelaVazia hv
  refine ⟨t, ht, ?_⟩
  rw [encontrarSuspeito_inserirVarias_outras ops ht h]
  obtain ⟨j, hj⟩ := indiceDaTabela_isSome hk
  simp [encontrarSuspeito, hj, tabelaVazia, buscarNaLista]

/-- A key of 50 bytes does not fit the field `char pista[50]`: its insertion
writes past the field, into the field of the suspect, so no table results in
which the key of 51 bytes made of that key and the suspect, never inserted,
would be looked up with the answer `NULL`. And with a signed `char` the key
of the bytes 195 169, never inserted, has the index -8, so its lookup in the
empty table reads outside `tabelaHash` instead of returning `NULL`. -/
theorem encontrarSuspeito_nunca_inserida_contraexemplo :
    (∀ cs, ¬ ∃ t, inserirVarias cs tabelaVazia [(chaveLonga, [100])] = some t ∧
      encontrarSuspeito cs t (chaveLonga ++ [100]) = some none) ∧
    encontrarSuspeito true tabelaVazia eAgudo ≠ some none := by
  constructor
  · intro cs
    have h : inserirVarias cs tabelaVazia [(chaveLonga, [100])] = none := by
      cases cs <;> decide
    rintro ⟨t, ht, _⟩
    rw [h] at ht
    cases ht
  · decide

/-- C4, for calls that stay inside the fields of a node and inside the table:
when every call has a key and a suspect of at most 49 bytes and a key whose
index is inside the table, and the key `k` is inserted with suspect `v` and no
later insertion uses the key `k` again, every call returns and
`encontrarSuspeito` returns `v` for `k`, whatever was inserted before
(`antes`) and whatever other keys were inserted after (`depois`), colliding or
not. A key inserted exactly once is the case where `antes` does not use `k`
either. -/
theorem encontrarSuspeito_inserida_uma_vez (cs : Bool) (antes depois : List (CStr × CStr))
    (k v : CStr) (hv : ∀ op ∈ antes ++ (k, v) :: depois, insercaoValida cs op)
    (hd : ∀ op ∈ depois, op.1 ≠ k) :
    ∃ t, inserirVarias cs tabelaVazia (antes ++ (k, v) :: depois) = some t ∧
      encontrarSuspeito cs t k = some (some v) := by
  obtain ⟨t, ht⟩ := inserirVarias_isSome cs _ tabelaVazia hv
  refine ⟨t, ht, ?_⟩
  obtain ⟨t1, _, h2⟩ := inserirVarias_append_eq_some ht
  obtain ⟨t2, h3, h4⟩ := inserirVarias_cons_eq_some h2
  rw [encontrarSuspeito_inserirVarias_outras depois h4 hd,
    encontrarSuspeito_inserirNaHash_mesma h3]

/-- The single insertion of a key of 50 bytes writes past the field
`char pista[50]`, and with a signed `char` the single insertion of the key of
the bytes 195 169 has the index -8 and stores outside `tabelaHash`: in
neither case is there a table in which the lookup of the key returns the
suspect. -/
theorem encontrarSuspeito_inserida_uma_vez_contraexemplo :
    (∀ cs, ¬ ∃ t, inserirVarias cs tabelaVazia ([] ++ (chaveLonga, [100]) :: []) = some t ∧
      encontrarSuspeito cs t chaveLonga = some (some [100])) ∧
    ¬ ∃ t, inserirVarias true tabelaVazia ([] ++ (eAgudo, [100]) :: []) = some t ∧
      encontrarSuspeito true t eAgudo = some (some [100]) := by
  constructor
  · intro cs
    have h : inserirVarias cs tabelaVazia ([] ++ (chaveLonga, [100]) :: []) = none := by
      cases cs <;> decide
    rintro ⟨t, ht, _⟩
    rw [h] at ht
    cases ht
  · have h : inserirVarias true tabelaVazia ([] ++ (eAgudo, [100]) :: []) = none := by
      decide
    rintro ⟨t, ht, _⟩
    rw [h] at ht
    cases ht

/-- C5, for calls that stay inside the fields of a node and inside the table:
from any table, for a key `k` of at most 49 bytes whose index is inside the
table, suspects of at most 49 bytes, and further calls `meio` that each stay
inside the fields and the table: `inserirNaHash(k, v1)`, the calls of `meio`
and `inserirNaHash(k, v2)` all return, and then `encontrarSuspeito(k)` returns
`v2`; the new entry is the head of the chain of the bucket of `k` and the
older entry (k, v1) is still in the rest of that chain. -/
theorem encontrarSuspeito_ultima_insercao (cs : Bool) (t : Tabela)
    (meio : List (CStr × CStr)) (k v1 v2 : CStr) (h1 : insercaoValida cs (k, v1))
    (hm : ∀ op ∈ meio, insercaoValida cs op) (h2 : insercaoValida cs (k, v2)) :
    ∃ t1 t2 t3, inserirNaHash cs t k v1 = some t1 ∧ inserirVarias cs t1 meio = some t2 ∧
      inserirNaHash cs t2 k v2 = some t3 ∧
      encontrarSuspeito cs t3 k = some (some v2) ∧
      ∃ j resto, indiceDaTabela (funcao_hash cs k) = some j ∧
        t3 j = { pista := k, suspeito := v2 } :: resto ∧
        { pista := k, suspeito := v1 } ∈ resto := by
  obtain ⟨t1, e1⟩ := inserirNaHash_isSome cs t h1
  obtain ⟨t2, e2⟩ := inserirVarias_isSome cs meio t1 hm
  obtain ⟨t3, e3⟩ := inserirNaHash_isSome cs t2 h2
  refine ⟨t1, t2, t3, e1, e2, e3, encontrarSuspeito_inserirNaHash_mesma e3, ?_⟩
  obtain ⟨_, _, j, hj, rfl⟩ := inserirNaHash_eq_some e3
  refine ⟨j, t2 j, hj, by simp, ?_⟩
  apply mem_inserirVarias_of_mem meio e2
  obtain ⟨_, _, j1, hj1, rfl⟩ := inserirNaHash_eq_some e1
  have : j1 = j := by
    rw [hj] at hj1
    exact (Option.some.inj hj1).symm
  simp [this]

/-- Inserting a key of 50 bytes writes past the field `char pista[50]`, and
with a signed `char` inserting the key of the bytes 195 169 stores outside
`tabelaHash`: in neither case do the two insertions of the key leave a table
in which its lookup returns the second suspect. -/
theorem encontrarSuspeito_ultima_insercao_contraexemplo :
    (∀ cs, ¬ ∃ t1 t3, inserirNaHash cs tabelaVazia chaveLonga [49] = some t1 ∧
      inserirNaHash cs t1 chaveLonga [50] = some t3 ∧
      encontrarSuspeito cs t3 chaveLonga = some (some [50])) ∧
    ¬ ∃ t1 t3, inserirNaHash true tabelaVazia eAgudo [49] = some t1 ∧
      inserirNaHash true t1 eAgudo [50] = some t3 ∧
      encontrarSuspeito true t3 eAgudo = some (some [50]) := by
  constructor
  · intro cs
    have h : inserirNaHash cs tabelaVazia chaveLonga [49] = none := by
      cases cs <;> decide
    rintro ⟨t1, _, h1, _⟩
    rw [h] at h1
    cases h1
  · have h : inserirNaHash true tabelaVazia eAgudo [49] = none := by decide
    rintro ⟨t1, _, h1, _⟩
    rw [h] at h1
    cases h1

/-! ## Facts about `funcao_hash` -/

theorem charParaInt_bounds (cs : Bool) (b : Fin 256) :
    -128 ≤ charParaInt cs b ∧ charParaInt cs b ≤ 255 := by
  have hb := b.isLt
  unfold charParaInt
  split_ifs with h
  · simp only [Bool.and_eq_true, decide_eq_true_eq] at h
    omega
  · omega

theorem wrapInt_eq_self {x : Int} (h1 : -2147483648 ≤ x) (h2 : x < 2147483648) :
    wrapInt x = x := by
  unfold wrapInt
  omega

theorem somaChars_eq_sum (cs : Bool) (s : CStr) (soma : Int)
    (h1 : -2147483648 + 128 * (s.length : Int) ≤ soma)
    (h2 : soma + 255 * (s.length : Int) < 2147483648) :
    somaChars cs soma s = soma + (s.map (charParaInt cs)).sum := by
  induction s generalizing soma with
  | nil => simp [somaChars]
  | cons c r ih =>
    have hc := charParaInt_bounds cs c
    simp only [List.length_cons, Nat.cast_add, Nat.cast_one] at h1 h2
    have hw : wrapInt (soma + charParaInt cs c) = soma + charParaInt cs c :=
      wrapInt_eq_self (by omega) (by omega)
    simp only [somaChars, hw, List.map_cons, List.sum_cons]
    rw [ih (soma + charParaInt cs c) (by omega) (by omega)]
    ring

theorem sum_charParaInt_naoNegativo (cs : Bool) (s : CStr)
    (h : cs = false ∨ ∀ b ∈ s, b.val < 128) :
    (s.map (charParaInt cs)).sum = (((s.map (fun b => b.val)).sum : Nat) : Int) := by
  induction s with
  | nil => simp
  | cons c r ih =>
    have hr : cs = false ∨ ∀ b ∈ r, b.val < 128 :=
      h.imp id (fun hh b hb => hh b (List.mem_cons_of_mem _ hb))
    have hc : charParaInt cs c = (c.val : Int) := by
      unfold charParaInt
      rcases h with h | h
      · simp [h]
      · have := h c (List.mem_cons_self _ _)
        have hd : decide (128 ≤ c.val) = false := by simp; omega
        simp [hd]
    simp only [List.map_cons, List.sum_cons, ih hr, hc, Nat.cast_add]

/-- Where the `int` sum does not wrap (at most 49 bytes), `funcao_hash` is the
sum of the values that plain `char` gives the bytes, reduced by C's `%` with
`TAMANHO_TABELA_HASH` = 10. Where those values are not negative (an unsigned
`char`, or a string of bytes below 128) this is the sum of the byte values
modulo 10. -/
theorem funcao_hash_soma_mod (cs : Bool) (s : CStr) (h : s.length ≤ 49) :
    funcao_hash cs s = Int.tmod ((s.map (charParaInt cs)).sum) 10 ∧
    ((cs = false ∨ ∀ b ∈ s, b.val < 128) →
      funcao_hash cs s = (((s.map (fun b => b.val)).sum % 10 : Nat) : Int)) := by
  have hl : (s.length : Int) ≤ 49 := by exact_mod_cast h
  have hs : somaChars cs 0 s = (s.map (charParaInt cs)).sum := by
    rw [somaChars_eq_sum cs s 0 (by omega) (by omega)]
    simp
  refine ⟨by simp [funcao_hash, hs, TAMANHO_TABELA_HASH], fun hn => ?_⟩
  simp only [funcao_hash, hs, TAMANHO_TABELA_HASH, sum_charParaInt_naoNegativo cs s hn]
  rw [Int.tmod_eq_emod (by positivity) (by norm_num)]
  norm_cast

/-- Where no character code is negative (an unsigned `char`, or bytes below
128 only) the index of a string of at most 49 bytes is inside the table. -/
theorem funcao_hash_indiceValido (cs : Bool) (s : CStr) (h : s.length ≤ 49)
    (hn : cs = false ∨ ∀ b ∈ s, b.val < 128) : indiceValido (funcao_hash cs s) := by
  have hl : (s.length : Int) ≤ 49 := by exact_mod_cast h
  have hs : somaChars cs 0 s = (s.map (charParaInt cs)).sum := by
    rw [somaChars_eq_sum cs s 0 (by omega) (by omega)]
    simp
  simp only [funcao_hash, hs, TAMANHO_TABELA_HASH, sum_charParaInt_naoNegativo cs s hn,
    indiceValido]
  rw [Int.tmod_eq_emod (by positivity) (by norm_num)]
  omega

/-- C6, as the code behaves: with a signed `char`, `funcao_hash` of the
built-in clue Castiçal (9 bytes, two of them above 127) is 5, while the sum
of its character codes, 1067, is 7 modulo 10; and `funcao_hash` of the bytes
195 169 is -8, while the sum of the codes, 364, is 4 modulo 10. With an
unsigned `char` the function returns 7 and 4. -/
theorem funcao_hash_difere_da_soma_dos_codigos :
    castical.length = 9 ∧
    funcao_hash true castical = 5 ∧ (castical.map (fun b => b.val)).sum % 10 = 7 ∧
    funcao_hash false castical = 7 ∧
    funcao_hash true eAgudo = -8 ∧ (eAgudo.map (fun b => b.val)).sum % 10 = 4 ∧
    funcao_hash false eAgudo = 4 := by
  decide

/-- C18, as the code behaves: with a signed `char` the string of the two
bytes 195 169 (e with acute accent in UTF-8) has the character codes -61 and
-87, their sum is -148, and `funcao_hash` returns -8, which is not an index
of `tabelaHash`. With an unsigned `char` the same string gives 4. The five
built-in clues get an index inside the table either way. -/
theorem funcao_hash_fora_dos_limites :
    funcao_hash true eAgudo = -8 ∧ ¬ indiceValido (funcao_hash true eAgudo) ∧
    funcao_hash false eAgudo = 4 ∧
    ∀ cs, ∀ op ∈ baseDeConhecimento, indiceValido (funcao_hash cs op.1) := by
  refine ⟨by decide, by decide, by decide, ?_⟩
  intro cs
  cases cs <;> decide

/-! ## Facts about the verdict -/

theorem encontrarSuspeito_isSome (cs : Bool) (tab : Tabela) {p : CStr}
    (h : indiceValido (funcao_hash cs p)) : ∃ r, encontrarSuspeito cs tab p = some r := by
  obtain ⟨j, hj⟩ := indiceDaTabela_isSome h
  simp only [encontrarSuspeito, hj]
  exact ⟨_, rfl⟩

theorem contarPistasRecursivo_validas (cs : Bool) (tab : Tabela) (t : PistaNode)
    (a : CStr) (contador : Int)
    (h : ∀ p ∈ exibirPistas t, indiceValido (funcao_hash cs p)) :
    contarPistasRecursivo cs tab t a contador =
      some (contador + (((exibirPistas t).countP
        (fun p => decide (encontrarSuspeito cs tab p = some (some a))) : Nat) : Int)) := by
  induction t generalizing contador with
  | nulo => simp [contarPistasRecursivo, exibirPistas]
  | no p e d ihe ihd =>
    have hp : indiceValido (funcao_hash cs p) := h p (by simp [exibirPistas])
    have he : ∀ x ∈ exibirPistas e, indiceValido (funcao_hash cs x) :=
      fun x hx => h x (by simp [exibirPistas, hx])
    have hd : ∀ x ∈ exibirPistas d, indiceValido (funcao_hash cs x) :=
      fun x hx => h x (by simp [exibirPistas, hx])
    obtain ⟨r, hr⟩ := encontrarSuspeito_isSome cs tab hp
    simp only [contarPistasRecursivo, hr, ihe _ he, ihd _ hd, exibirPistas,
      List.countP_append, List.countP_cons, Nat.cast_add, Option.some.injEq]
    cases r with
    | none =>
      simp
      ring
    | some s =>
      by_cases hs : strcmp s a = 0
      · have : s = a := strcmp_eq_zero.mp hs
        subst this
        simp [hs]
        ring
      · have : s ≠ a := fun h => hs (strcmp_eq_zero.mpr h)
        simp [hs, this]
        ring

/-- C9: with an empty clue collection `verificarSuspeitoFinal` ends with the
message that no accusation is possible, whatever the accused name would be;
this outcome is neither the confirmed one nor the insufficient-evidence
one. -/
theorem verificarSuspeitoFinal_sem_pistas (cs : Bool) (tab : Tabela) (a : CStr) :
    verificarSuspeitoFinal cs tab .nulo a = some .impossivel ∧
    (∀ n, verificarSuspeitoFinal cs tab .nulo a ≠ some (.confirmada n)) ∧
    (∀ n, verificarSuspeitoFinal cs tab .nulo a ≠ some (.insuficiente n)) := by
  refine ⟨rfl, fun n h => ?_, fun n h => ?_⟩ <;> cases h

/-! ## Facts about the map -/

theorem Sala.em_nulo (c : Caminho) : Sala.em .nulo c = .nulo := by
  induction c with
  | nil => rfl
  | cons l c ih => simpa [Sala.em, Sala.filho] using ih

theorem Sala.em_cons (m : Sala) (l : Lado) (c : Caminho) :
    Sala.em m (l :: c) = Sala.em (m.filho l) c := rfl

theorem Sala.em_snoc (m : Sala) (c : Caminho) (l : Lado) :
    Sala.em m (c ++ [l]) = (Sala.em m c).filho l := by
  simp [Sala.em, List.foldl_append]

theorem Sala.pistaDe_em_limparPista_mesma (m : Sala) (p : Caminho) :
    ((m.limparPista p).em p).pistaDe = none := by
  induction p generalizing m with
  | nil => cases m <;> rfl
  | cons l p ih =>
    cases m with
    | nulo => simp [Sala.limparPista, Sala.em_nulo, Sala.pistaDe]
    | no n x e d =>
      cases l
      · simpa [Sala.limparPista, Sala.em_cons, Sala.filho] using ih e
      · simpa [Sala.limparPista, Sala.em_cons, Sala.filho] using ih d

theorem Sala.pistaDe_em_limparPista_outra (m : Sala) (p q : Caminho) (h : q ≠ p) :
    ((m.limparPista p).em q).pistaDe = (m.em q).pistaDe := by
  induction p generalizing m q with
  | nil =>
    cases m with
    | nulo => rfl
    | no n x e d =>
      cases q with
      | nil => exact absurd rfl h
      | cons l q => cases l <;> rfl
  | cons l p ih =>
    cases m with
    | nulo => rfl
    | no n x e d =>
      cases q with
      | nil => cases l <;> rfl
      | cons l1 q =>
        cases l <;> cases l1
        · simpa [Sala.limparPista, Sala.em_cons, Sala.filho] using
            ih e q (fun hq => h (by rw [hq]))
        · rfl
        · rfl
        · simpa [Sala.limparPista, Sala.em_cons, Sala.filho] using
            ih d q (fun hq => h (by rw [hq]))

theorem Sala.em_limparPista_eq_nulo (m : Sala) (p q : Caminho) :
    (m.limparPista p).em q = .nulo ↔ m.em q = .nulo := by
  induction p generalizing m q with
  | nil =>
    cases m with
    | nulo => rfl
    | no n x e d =>
      cases q with
      | nil => simp [Sala.limparPista, Sala.em]
      | cons l q => cases l <;> rfl
  | cons l p ih =>
    cases m with
    | nulo => rfl
    | no n x e d =>
      cases q with
      | nil => cases l <;> simp [Sala.limparPista, Sala.em]
      | cons l1 q =>
        cases l <;> cases l1
        · simpa [Sala.limparPista, Sala.em_cons, Sala.filho] using ih e q
        · rfl
        · rfl
        · simpa [Sala.limparPista, Sala.em_cons, Sala.filho] using ih d q

/-! ## The map only loses clues -/

theorem Sala.soPistasRemovidas_refl (m : Sala) : Sala.soPistasRemovidas m m := by
  induction m with
  | nulo => trivial
  | no n p e d ihe ihd => exact ⟨rfl, Or.inl rfl, ihe, ihd⟩

theorem Sala.soPistasRemovidas_trans {a b c : Sala} (hab : Sala.soPistasRemovidas a b)
    (hbc : Sala.soPistasRemovidas b c) : Sala.soPistasRemovidas a c := by
  induction a generalizing b c with
  | nulo =>
    cases b with
    | nulo => exact hbc
    | no n p e d => exact absurd hab (by simp [Sala.soPistasRemovidas])
  | no n p e d ihe ihd =>
    cases b with
    | nulo => exact absurd hab (by simp [Sala.soPistasRemovidas])
    | no n2 p2 e2 d2 =>
      cases c with
      | nulo => exact absurd hbc (by simp [Sala.soPistasRemovidas])
      | no n3 p3 e3 d3 =>
        obtain ⟨hn, hp, he, hd⟩ := hab
        obtain ⟨hn2, hp2, he2, hd2⟩ := hbc
        refine ⟨hn2.trans hn, ?_, ihe he he2, ihd hd hd2⟩
        rcases hp2 with h | h
        · rw [h]
          exact hp
        · exact Or.inr h

theorem Sala.soPistasRemovidas_limparPista (m : Sala) (p : Caminho) :
    Sala.soPistasRemovidas m (m.limparPista p) := by
  induction p generalizing m with
  | nil =>
    cases m with
    | nulo => trivial
    | no n x e d =>
      exact ⟨rfl, Or.inr rfl, Sala.soPistasRemovidas_refl e, Sala.soPistasRemovidas_refl d⟩
  | cons l p ih =>
    cases m with
    | nulo => trivial
    | no n x e d =>
      cases l
      · exact ⟨rfl, Or.inl rfl, ih e, Sala.soPistasRemovidas_refl d⟩
      · exact ⟨rfl, Or.inl rfl, Sala.soPistasRemovidas_refl e, ih d⟩

theorem Sala.soPistasRemovidas_filho {a b : Sala} (h : Sala.soPistasRemovidas a b)
    (l : Lado) : Sala.soPistasRemovidas (a.filho l) (b.filho l) := by
  cases a with
  | nulo =>
    cases b with
    | nulo => trivial
    | no n p e d => exact absurd h (by simp [Sala.soPistasRemovidas])
  | no n p e d =>
    cases b with
    | nulo => exact absurd h (by simp [Sala.soPistasRemovidas])
    | no n2 p2 e2 d2 =>
      obtain ⟨_, _, he, hd⟩ := h
      cases l
      · exact he
      · exact hd

theorem Sala.soPistasRemovidas_em {a b : Sala} (h : Sala.soPistasRemovidas a b)
    (q : Caminho) : Sala.soPistasRemovidas (a.em q) (b.em q) := by
  induction q generalizing a b with
  | nil => exact h
  | cons l q ih => exact ih (Sala.soPistasRemovidas_filho h l)

/-- What the relation says of one room: it exists in both maps or in neither,
under the same name, with the clue it had or none. -/
theorem Sala.soPistasRemovidas_campos {a b : Sala} (h : Sala.soPistasRemovidas a b) :
    (b = .nulo ↔ a = .nulo) ∧ b.nomeDe = a.nomeDe ∧
    (b.pistaDe = a.pistaDe ∨ b.pistaDe = none) := by
  cases a with
  | nulo =>
    cases b with
    | nulo => exact ⟨Iff.rfl, rfl, Or.inl rfl⟩
    | no n p e d => exact absurd h (by simp [Sala.soPistasRemovidas])
  | no n p e d =>
    cases b with
    | nulo => exact absurd h (by simp [Sala.soPistasRemovidas])
    | no n2 p2 e2 d2 =>
      obtain ⟨hn, hp, _, _⟩ := h
      exact ⟨by simp, hn, hp⟩

theorem Sala.pistasCabem_em {m : Sala} (h : Sala.pistasCabem m) (q : Caminho) (c : CStr)
    (hc : (m.em q).pistaDe = some c) : c.length < 50 := by
  induction q generalizing m with
  | nil =>
    cases m with
    | nulo => cases hc
    | no n p e d => exact h.1 c hc
  | cons l q ih =>
    cases m with
    | nulo =>
      rw [Sala.em_nulo] at hc
      cases hc
    | no n p e d =>
      cases l
      · exact ih h.2.1 hc
      · exact ih h.2.2 hc

/-! ## Facts about one pass of the exploration loop -/

theorem lerEscolha_campos (s : Estado) :
    (lerEscolha s).mapa = s.mapa ∧ (lerEscolha s).salaAtual = s.salaAtual ∧
    (lerEscolha s).raizPistas = s.raizPistas ∧ (lerEscolha s).saida = s.saida := by
  unfold lerEscolha
  split <;> exact ⟨rfl, rfl, rfl, rfl⟩

theorem lerEscolha_escolha_congr (a b : Estado) (h1 : a.entrada = b.entrada)
    (h2 : a.escolha = b.escolha) : (lerEscolha a).escolha = (lerEscolha b).escolha := by
  unfold lerEscolha
  rw [h1]
  cases b.entrada.dropWhile espaco with
  | nil => exact h2
  | cons c r => rfl

theorem lerEscolha_entrada_congr (a b : Estado) (h1 : a.entrada = b.entrada) :
    (lerEscolha a).entrada = (lerEscolha b).entrada := by
  unfold lerEscolha
  rw [h1]
  cases b.entrada.dropWhile espaco <;> rfl

/-- What lines 177-184 do: nothing but a line of output when the room has no
clue; otherwise the clue-found line, one call of `inserirPista` with the clue
on the collection, and the clue cleared. -/
theorem coletar_campos (s : Estado) :
    (coletar s).salaAtual = s.salaAtual ∧ (coletar s).escolha = s.escolha ∧
    (coletar s).entrada = s.entrada ∧
    (((s.mapa.em s.salaAtual).pistaDe = none ∧ (coletar s).mapa = s.mapa ∧
        (coletar s).raizPistas = s.raizPistas ∧
        (coletar s).saida = s.saida ++ [.nenhumaPista]) ∨
      ∃ c, (s.mapa.em s.salaAtual).pistaDe = some c ∧
        (coletar s).raizPistas = s.raizPistas.bind (fun raiz => inserirPista raiz c) ∧
        (coletar s).mapa = s.mapa.limparPista s.salaAtual ∧
        (coletar s).saida = s.saida ++ [.pistaEncontrada c]) := by
  unfold coletar
  cases hp : (s.mapa.em s.salaAtual).pistaDe with
  | none => exact ⟨rfl, rfl, rfl, Or.inl ⟨rfl, rfl, rfl, rfl⟩⟩
  | some c => exact ⟨rfl, rfl, rfl, Or.inr ⟨c, rfl, rfl, rfl, rfl⟩⟩

/-- What `mover` can do: the map, the collection, the choice and the input
are not touched, the current room stays or becomes an existing child, and at
most one line, never the clue-found line, is printed. -/
theorem mover_campos (t : Estado) :
    ∃ u resto, (mover t = .emCurso u ∨ mover t = .encerrada u) ∧
      u.mapa = t.mapa ∧ u.raizPistas = t.raizPistas ∧
      u.escolha = t.escolha ∧ u.entrada = t.entrada ∧
      (u.salaAtual = t.salaAtual ∨
        ∃ l, u.salaAtual = t.salaAtual ++ [l] ∧ t.mapa.em (t.salaAtual ++ [l]) ≠ .nulo) ∧
      u.saida = t.saida ++ resto ∧ ∀ m ∈ resto, ∀ x, m ≠ .pistaEncontrada x := by
  unfold mover
  by_cases he : t.escolha = 101
  · rw [if_pos he]
    cases hf : (t.mapa.em t.salaAtual).filho .esquerda with
    | nulo =>
      exact ⟨_, [.semCaminhoEsquerda], Or.inl rfl, rfl, rfl, rfl, rfl, Or.inl rfl, rfl,
        by simp⟩
    | no n x e d =>
      refine ⟨_, [], Or.inl rfl, rfl, rfl, rfl, rfl, Or.inr ⟨.esquerda, rfl, ?_⟩, by simp,
        by simp⟩
      rw [Sala.em_snoc, hf]
      simp
  · rw [if_neg he]
    by_cases hd : t.escolha = 100
    · rw [if_pos hd]
      cases hf : (t.mapa.em t.salaAtual).filho .direita with
      | nulo =>
        exact ⟨_, [.semCaminhoDireita], Or.inl rfl, rfl, rfl, rfl, rfl, Or.inl rfl, rfl,
          by simp⟩
      | no n x e d =>
        refine ⟨_, [], Or.inl rfl, rfl, rfl, rfl, rfl, Or.inr ⟨.direita, rfl, ?_⟩, by simp,
          by simp⟩
        rw [Sala.em_snoc, hf]
        simp
    · rw [if_neg hd]
      by_cases hs : t.escolha = 115
      · rw [if_pos hs]
        exact ⟨_, [.exploracaoEncerrada], Or.inr rfl, rfl, rfl, rfl, rfl, Or.inl rfl, rfl,
          by simp⟩
      · rw [if_neg hs]
        exact ⟨_, [.opcaoInvalida], Or.inl rfl, rfl, rfl, rfl, rfl, Or.inl rfl, rfl,
          by simp⟩

/-- A pass that starts in a room of the map is `mover` on a state `t` that has
the choice and the remaining input that `scanf` leaves, the current room of
`s`, and the map, the collection and the output that the clue collection of
lines 177-184 leaves. -/
theorem iteracao_eq_mover (s : Estado) (hs : s.mapa.em s.salaAtual ≠ .nulo) :
    ∃ t, iteracao s = mover t ∧ t.escolha = (lerEscolha s).escolha ∧
      t.entrada = (lerEscolha s).entrada ∧ t.salaAtual = s.salaAtual ∧
      t.mapa = (coletar { s with saida := s.saida ++
        [.voceEstaEm (s.mapa.em s.salaAtual).nomeDe] }).mapa ∧
      t.raizPistas = (coletar { s with saida := s.saida ++
        [.voceEstaEm (s.mapa.em s.salaAtual).nomeDe] }).raizPistas ∧
      t.saida = (coletar { s with saida := s.saida ++
        [.voceEstaEm (s.mapa.em s.salaAtual).nomeDe] }).saida := by
  cases hr : s.mapa.em s.salaAtual with
  | nulo => exact absurd hr hs
  | no nome pista e d =>
    have hit : iteracao s =
        mover (lerEscolha (coletar { s with saida := s.saida ++ [.voceEstaEm nome] })) := by
      simp only [iteracao, hr]
    obtain ⟨c1, c2, c3, _⟩ := coletar_campos { s with saida := s.saida ++ [.voceEstaEm nome] }
    obtain ⟨l1, l2, l3, l4⟩ :=
      lerEscolha_campos (coletar { s with saida := s.saida ++ [.voceEstaEm nome] })
    exact ⟨_, hit, lerEscolha_escolha_congr _ _ c3 c2, lerEscolha_entrada_congr _ _ c3,
      l2.trans c1, l1, l3, l4⟩

/-- A pass from a room of the map ends at the top of the loop or at the
`break`. -/
theorem iteracao_termina (s : Estado) (hs : s.mapa.em s.salaAtual ≠ .nulo) :
    ∃ s2, iteracao s = .emCurso s2 ∨ iteracao s = .encerrada s2 := by
  obtain ⟨t, hit, _⟩ := iteracao_eq_mover s hs
  obtain ⟨u, _, hu, _⟩ := mover_campos t
  rw [hit]
  exact ⟨u, hu⟩

/-- A pass is undefined only when the current room is `NULL`. -/
theorem iteracao_eq_falha {s : Estado} (h : iteracao s = .falha) :
    s.mapa.em s.salaAtual = .nulo := by
  by_contra hs
  obtain ⟨s2, h2⟩ := iteracao_termina s hs
  rw [h] at h2
  rcases h2 with h2 | h2 <;> cases h2

/-- One pass that ends at the top of the loop or at the `break`, in the state
`s2`: it started in a room of the map; the current room stays or becomes an
existing child; the choice and the input are those `scanf` leaves; and either
the room had no clue, the map and the collection are unchanged and the pass
printed the room line and the nothing-new line, or the room had a clue `c`,
the collection of `s2` is what the one call of `inserirPista` with `c` leaves,
the clue of the room is cleared and the pass printed the room line and the
clue-found line; after those two lines no clue-found line is printed. -/
theorem iteracao_campos {s s2 : Estado}
    (h : iteracao s = .emCurso s2 ∨ iteracao s = .encerrada s2) :
    s.mapa.em s.salaAtual ≠ .nulo ∧
    (s2.salaAtual = s.salaAtual ∨
      ∃ l, s2.salaAtual = s.salaAtual ++ [l] ∧ s2.mapa.em s2.salaAtual ≠ .nulo) ∧
    s2.escolha = (lerEscolha s).escolha ∧ s2.entrada = (lerEscolha s).entrada ∧
    ∃ resto, (∀ m ∈ resto, ∀ x, m ≠ .pistaEncontrada x) ∧
      (((s.mapa.em s.salaAtual).pistaDe = none ∧ s2.mapa = s.mapa ∧
          s2.raizPistas = s.raizPistas ∧
          s2.saida = s.saida ++ (.voceEstaEm (s.mapa.em s.salaAtual).nomeDe ::
            .nenhumaPista :: resto)) ∨
        ∃ c, (s.mapa.em s.salaAtual).pistaDe = some c ∧
          s2.raizPistas = s.raizPistas.bind (fun raiz => inserirPista raiz c) ∧
          s2.mapa = s.mapa.limparPista s.salaAtual ∧
          s2.saida = s.saida ++ (.voceEstaEm (s.mapa.em s.salaAtual).nomeDe ::
            .pistaEncontrada c :: resto)) := by
  have hs : s.mapa.em s.salaAtual ≠ .nulo := by
    intro hn
    have hf : iteracao s = .falha := by simp only [iteracao, hn]
    rw [hf] at h
    rcases h with h | h <;> cases h
  obtain ⟨t, hit, t1, t2, t3, t4, t5, t6⟩ := iteracao_eq_mover s hs
  obtain ⟨u, resto, hu, u1, u2, u3, u4, u5, u6, u7⟩ := mover_campos t
  have hus : u = s2 := by
    rw [hit] at h
    rcases h with h | h <;> rcases hu with hu | hu <;> rw [hu] at h <;> cases h <;> rfl
  subst hus
  obtain ⟨_, _, _, hd⟩ := coletar_campos { s with saida := s.saida ++
    [.voceEstaEm (s.mapa.em s.salaAtual).nomeDe] }
  refine ⟨hs, ?_, u3.trans t1, u4.trans t2, resto, u7, ?_⟩
  · rcases u5 with u5 | ⟨l, hl, hne⟩
    · exact Or.inl (u5.trans t3)
    · refine Or.inr ⟨l, by rw [hl, t3], ?_⟩
      rw [hl, u1]
      exact hne
  · rcases hd with ⟨d1, d2, d3, d4⟩ | ⟨c, d1, d2, d3, d4⟩
    · refine Or.inl ⟨d1, by rw [u1, t4, d2], by rw [u2, t5, d3], ?_⟩
      rw [u6, t6, d4]
      simp
    · refine Or.inr ⟨c, d1, ?_, by rw [u1, t4, d3], ?_⟩
      · rw [u2, t5]
        exact d2
      · rw [u6, t6, d4]
        simp

/-- What a pass does to the map: the clue of the room of the pass is absent
after it, every other clue is untouched, and the rooms are the same. -/
theorem iteracao_mapa {s s2 : Estado}
    (h : iteracao s = .emCurso s2 ∨ iteracao s = .encerrada s2) :
    (s2.mapa.em s.salaAtual).pistaDe = none ∧
    (∀ q, q ≠ s.salaAtual → (s2.mapa.em q).pistaDe = (s.mapa.em q).pistaDe) ∧
    (∀ q, s2.mapa.em q = .nulo ↔ s.mapa.em q = .nulo) ∧
    Sala.soPistasRemovidas s.mapa s2.mapa := by
  obtain ⟨_, _, _, _, _, _, hd⟩ := iteracao_campos h
  rcases hd with ⟨d1, d2, _, _⟩ | ⟨c, _, _, d3, _⟩
  · rw [d2]
    exact ⟨d1, fun _ _ => rfl, fun _ => Iff.rfl, Sala.soPistasRemovidas_refl _⟩
  · rw [d3]
    exact ⟨Sala.pistaDe_em_limparPista_mesma _ _,
      fun q hq => Sala.pistaDe_em_limparPista_outra _ _ q hq,
      fun q => Sala.em_limparPista_eq_nulo _ _ q, Sala.soPistasRemovidas_limparPista _ _⟩

theorem Sala.pistasCabem_soPistasRemovidas {a b : Sala} (h : Sala.soPistasRemovidas a b)
    (ha : Sala.pistasCabem a) : Sala.pistasCabem b := by
  induction a generalizing b with
  | nulo =>
    cases b with
    | nulo => trivial
    | no n p e d => exact absurd h (by simp [Sala.soPistasRemovidas])
  | no n p e d ihe ihd =>
    cases b with
    | nulo => exact absurd h (by simp [Sala.soPistasRemovidas])
    | no n2 p2 e2 d2 =>
      obtain ⟨_, hp, he, hd⟩ := h
      refine ⟨fun c hc => ?_, ihe he ha.2.1, ihd hd ha.2.2⟩
      rcases hp with hp | hp
      · exact ha.1 c (by rw [← hp]; exact hc)
      · rw [hp] at hc
        cases hc

/-! ## Facts about runs of the exploration loop -/

theorem Resultado.estado_eq_some {r : Resultado} {s : Estado} (h : r.estado = some s) :
    r = .emCurso s ∨ r = .encerrada s := by
  cases r with
  | emCurso x =>
    simp only [Resultado.estado, Option.some.injEq] at h
    exact Or.inl (by rw [h])
  | encerrada x =>
    simp only [Resultado.estado, Option.some.injEq] at h
    exact Or.inr (by rw [h])
  | falha => cases h

/-- A property that every pass preserves holds in every state a run reaches,
at the top of the loop or at the `break`. -/
theorem executar_preserva (P : Estado → Prop)
    (hpasso : ∀ s s2, P s → (iteracao s = .emCurso s2 ∨ iteracao s = .encerrada s2) → P s2)
    (n : Nat) (s0 s : Estado) (h0 : P s0) (h : (executar n s0).estado = some s) : P s := by
  induction n generalizing s0 with
  | zero =>
    simp only [executar, Resultado.estado, Option.some.injEq] at h
    rw [← h]
    exact h0
  | succ n ih =>
    cases hi : iteracao s0 with
    | emCurso s1 =>
      have e1 : executar (n + 1) s0 = executar n s1 := by simp only [executar, hi]
      rw [e1] at h
      exact ih s1 (hpasso s0 s1 h0 (Or.inl hi)) h
    | encerrada s1 =>
      have e1 : executar (n + 1) s0 = .encerrada s1 := by simp only [executar, hi]
      rw [e1] at h
      simp only [Resultado.estado, Option.some.injEq] at h
      rw [← h]
      exact hpasso s0 s1 h0 (Or.inr hi)
    | falha =>
      have e1 : executar (n + 1) s0 = .falha := by simp only [executar, hi]
      rw [e1] at h
      simp [Resultado.estado] at h

/-- From a room of the map no number of passes is undefined: the current room
is never `NULL`. -/
theorem executar_ne_falha (n : Nat) (s : Estado) (hs : s.mapa.em s.salaAtual ≠ .nulo) :
    executar n s ≠ .falha := by
  induction n generalizing s with
  | zero => simp [executar]
  | succ n ih =>
    cases hi : iteracao s with
    | emCurso s1 =>
      have e1 : executar (n + 1) s = executar n s1 := by simp only [executar, hi]
      obtain ⟨_, hc, _⟩ := iteracao_campos (Or.inl hi)
      obtain ⟨_, _, hnulo, _⟩ := iteracao_mapa (Or.inl hi)
      rw [e1]
      refine ih s1 ?_
      rcases hc with hc | ⟨l, _, hne⟩
      · rw [hc]
        exact fun hn => hs ((hnulo _).mp hn)
      · exact hne
    | encerrada s1 =>
      have e1 : executar (n + 1) s = .encerrada s1 := by simp only [executar, hi]
      rw [e1]
      simp
    | falha => exact absurd (iteracao_eq_falha hi) hs

/-- The clues in the collection, while it is defined, were there at the start
or are the clues that the starting map holds in rooms on the path to the
current room. -/
theorem executar_pistas_do_caminho (mapa : Sala) (raiz : PistaNode) (entrada : CStr)
    (escolha0 : Fin 256) (n : Nat) (s : Estado)
    (h : (executar n (estadoInicial mapa raiz entrada escolha0)).estado = some s) :
    ∀ t, s.raizPistas = some t → ∀ x ∈ exibirPistas t,
      x ∈ exibirPistas raiz ∨
        ∃ q r, s.salaAtual = q ++ r ∧ (mapa.em q).pistaDe = some x := by
  have hinv := executar_preserva
    (fun s => Sala.soPistasRemovidas mapa s.mapa ∧
      ∀ t, s.raizPistas = some t → ∀ x ∈ exibirPistas t,
        x ∈ exibirPistas raiz ∨ ∃ q r, s.salaAtual = q ++ r ∧ (mapa.em q).pistaDe = some x)
    ?_ n (estadoInicial mapa raiz entrada escolha0) s
    ⟨Sala.soPistasRemovidas_refl mapa, fun t ht x hx => by
      cases ht
      exact Or.inl hx⟩ h
  · exact hinv.2
  · rintro s1 s2 ⟨hrel, hcol⟩ hit
    obtain ⟨_, hc, _, _, resto, _, hd⟩ := iteracao_campos hit
    have hcam : ∃ r0, s2.salaAtual = s1.salaAtual ++ r0 := by
      rcases hc with hc | ⟨l, hl, _⟩
      · exact ⟨[], by rw [hc, List.append_nil]⟩
      · exact ⟨[l], hl⟩
    obtain ⟨r0, hr0⟩ := hcam
    refine ⟨Sala.soPistasRemovidas_trans hrel (iteracao_mapa hit).2.2.2, fun t ht x hx => ?_⟩
    have hold : ∀ t1, s1.raizPistas = some t1 → x ∈ exibirPistas t1 →
        x ∈ exibirPistas raiz ∨
          ∃ q r, s2.salaAtual = q ++ r ∧ (mapa.em q).pistaDe = some x := by
      intro t1 ht1 hx1
      rcases hcol t1 ht1 x hx1 with hx0 | ⟨q, r, hq, hpq⟩
      · exact Or.inl hx0
      · exact Or.inr ⟨q, r ++ r0, by rw [hr0, hq, List.append_assoc], hpq⟩
    rcases hd with ⟨_, _, d3, _⟩ | ⟨c, d1, d2, _, _⟩
    · rw [d3] at ht
      exact hold t ht hx
    · rw [ht] at d2
      obtain ⟨t1, ht1, hins⟩ := Option.bind_eq_some.mp d2.symm
      rcases (mem_exibirPistas_inserirPista hins x).mp hx with rfl | hx1
      · refine Or.inr ⟨s1.salaAtual, r0, hr0, ?_⟩
        rcases (Sala.soPistasRemovidas_campos
          (Sala.soPistasRemovidas_em hrel s1.salaAtual)).2.2 with h1 | h1
        · rw [← h1, d1]
        · rw [d1] at h1
          cases h1
      · exact hold t1 ht1 hx1

/-- On a map whose clues all have at most 49 bytes every call of
`inserirPista` returns, so the collection stays defined along a run. -/
theorem executar_colecao_definida (n : Nat) (s0 s : Estado)
    (hfit : Sala.pistasCabem s0.mapa) (h0 : ∃ t, s0.raizPistas = some t)
    (h : (executar n s0).estado = some s) : ∃ t, s.raizPistas = some t := by
  have hinv := executar_preserva
    (fun s => Sala.pistasCabem s.mapa ∧ ∃ t, s.raizPistas = some t) ?_ n s0 s ⟨hfit, h0⟩ h
  · exact hinv.2
  · rintro s1 s2 ⟨hf1, t1, ht1⟩ hit
    obtain ⟨_, _, _, _, _, _, hd⟩ := iteracao_campos hit
    refine ⟨Sala.pistasCabem_soPistasRemovidas (iteracao_mapa hit).2.2.2 hf1, ?_⟩
    rcases hd with ⟨_, _, d3, _⟩ | ⟨c, d1, d2, _, _⟩
    · exact ⟨t1, by rw [d3, ht1]⟩
    · obtain ⟨t2, ht2⟩ := inserirPista_isSome t1 c (Sala.pistasCabem_em hf1 _ c d1)
      exact ⟨t2, by rw [d2, ht1, Option.some_bind, ht2]⟩

theorem mover_encerrada {t u : Estado} (h : mover t = .encerrada u) : t.escolha = 115 := by
  unfold mover at h
  by_cases h101 : t.escolha = 101
  · rw [if_pos h101] at h
    cases hf : (t.mapa.em t.salaAtual).filho .esquerda <;> simp [hf] at h
  · rw [if_neg h101] at h
    by_cases h100 : t.escolha = 100
    · rw [if_pos h100] at h
      cases hf : (t.mapa.em t.salaAtual).filho .direita <;> simp [hf] at h
    · rw [if_neg h100] at h
      by_cases h115 : t.escolha = 115
      · exact h115
      · rw [if_neg h115] at h
        cases h

/-- A pass whose choice is not s (115), from a room of the map, goes back to
the top of the loop, in a room of the map, with the choice and the remaining
input that `scanf` left. -/
theorem iteracao_sem_sair (s : Estado) (hs : s.mapa.em s.salaAtual ≠ .nulo)
    (hc : (lerEscolha s).escolha ≠ 115) :
    ∃ s2, iteracao s = .emCurso s2 ∧ s2.escolha = (lerEscolha s).escolha ∧
      s2.entrada = (lerEscolha s).entrada ∧ s2.mapa.em s2.salaAtual ≠ .nulo := by
  cases hi : iteracao s with
  | falha => exact absurd (iteracao_eq_falha hi) hs
  | encerrada u =>
    obtain ⟨t, hit, hesc, _⟩ := iteracao_eq_mover s hs
    rw [hit] at hi
    exact absurd (hesc ▸ mover_encerrada hi) hc
  | emCurso s2 =>
    obtain ⟨_, hcam, h1, h2, _⟩ := iteracao_campos (Or.inl hi)
    obtain ⟨_, _, hnulo, _⟩ := iteracao_mapa (Or.inl hi)
    refine ⟨s2, rfl, h1, h2, ?_⟩
    rcases hcam with hcam | ⟨l, _, hne⟩
    · rw [hcam]
      exact fun hn => hs ((hnulo _).mp hn)
    · exact hne

theorem lerEscolha_sem_sair (s : Estado) (hc : s.escolha ≠ 115)
    (he : ∀ b ∈ s.entrada, b ≠ 115) :
    (lerEscolha s).escolha ≠ 115 ∧ ∀ b ∈ (lerEscolha s).entrada, b ≠ 115 := by
  unfold lerEscolha
  cases hd : s.entrada.dropWhile espaco with
  | nil => exact ⟨hc, by simp⟩
  | cons c r =>
    have hsub : ∀ b ∈ c :: r, b ∈ s.entrada := by
      intro b hb
      rw [← hd] at hb
      exact (List.dropWhile_sublist espaco).subset hb
    exact ⟨he c (hsub c (List.mem_cons_self _ _)),
      fun b hb => he b (hsub b (List.mem_cons_of_mem _ hb))⟩

/-- The loop ends only by reading the choice s: from a state in a room of the
map whose `escolha` is not s and whose remaining input has no byte s, every
number of passes leaves the loop still running. -/
theorem executar_sem_sair (n : Nat) (s : Estado) (hs : s.mapa.em s.salaAtual ≠ .nulo)
    (hc : s.escolha ≠ 115) (he : ∀ b ∈ s.entrada, b ≠ 115) :
    ∃ s2, executar n s = .emCurso s2 := by
  induction n generalizing s with
  | zero => exact ⟨s, rfl⟩
  | succ n ih =>
    obtain ⟨l1, l2⟩ := lerEscolha_sem_sair s hc he
    obtain ⟨s1, hit, h1, h2, h3⟩ := iteracao_sem_sair s hs l1
    have e1 : executar (n + 1) s = executar n s1 := by simp only [executar, hit]
    rw [e1]
    exact ih s1 h3 (by rw [h1]; exact l1) (by rw [h2]; exact l2)

/-- C17, as the code behaves: on the built-in map with the console input e,
newline and then end of input, the loop of `explorarSalas` is still running
after every number of passes. At end of input `scanf` stores nothing, the old
choice e is used again, and the `break` is never reached. -/
theorem explorarSalas_nao_termina_no_fim_da_entrada (n : Nat) :
    ∃ s, explorarSalas mapaDaMansao .nulo entradaSemSair 0 n = .emCurso s := by
  refine executar_sem_sair n (estadoInicial mapaDaMansao .nulo entradaSemSair 0)
    (by decide) (by decide) ?_
  intro b hb
  have hb' : b = 101 ∨ b = 10 := by
    simpa [estadoInicial, entradaSemSair] using hb
  rcases hb' with rfl | rfl <;> decide

/-! ## The two scenarios -/

/-- C12: the scenario of the specification. On the map Hall (no clue), Study
(Candlestick) on the left, Library (Rope) on the right, with the index
Candlestick to Col. Mustard and Rope to Mrs. White, the choices e (left) and
s (exit) end the exploration after two passes with exactly Candlestick
collected; accusing Col. Mustard then counts 1 match and the verdict is
insufficient evidence. -/
theorem cenario_da_especificacao (cs : Bool) (escolha0 : Fin 256) :
    ∃ tab s t, tabelaDoCenario cs = some tab ∧
      explorarSalas mapaDoCenario .nulo entradaEsquerdaSair escolha0 2 = .encerrada s ∧
      s.raizPistas = some t ∧ exibirPistas t = [candlestick] ∧
      contarPistasRecursivo cs tab t colMustard 0 = some 1 ∧
      verificarSuspeitoFinal cs tab t colMustard = some (.insuficiente 1) := by
  cases cs <;> exact ⟨_, _, _, rfl, rfl, rfl, rfl, rfl, rfl⟩

theorem countP_le_one_of_nodup {l : List CStr} {p : CStr → Bool} (a : CStr)
    (hl : l.Nodup) (h : ∀ x ∈ l, p x = true → x = a) : l.countP p ≤ 1 := by
  induction l with
  | nil => simp
  | cons x xs ih =>
    rw [List.nodup_cons] at hl
    obtain ⟨hx, hxs⟩ := hl
    have hrest : ∀ y ∈ xs, p y = true → y = a :=
      fun y hy => h y (List.mem_cons_of_mem _ hy)
    by_cases hp : p x = true
    · have hxa : x = a := h x (List.mem_cons_self _ _) hp
      have hzero : xs.countP p = 0 := by
        rw [List.countP_eq_zero]
        intro y hy hpy
        exact hx (by rw [hxa, ← hrest y hy hpy]; exact hy)
      rw [List.countP_cons_of_pos _ _ hp, hzero]
    · rw [List.countP_cons_of_neg _ _ hp]
      exact ih hxs hrest

/-- The clues that the map of `main` holds. -/
theorem pistas_do_mapaDaMansao (q : Caminho) (x : CStr)
    (h : (mapaDaMansao.em q).pistaDe = some x) :
    x ∈ [castical, veneno, adaga, corda, chaveInglesa] := by
  have hx : ∀ {y : CStr}, some y = some x → y = x := fun e => Option.some.inj e
  match q with
  | [] => cases h
  | [.esquerda] => simp [← hx h]
  | [.direita] => simp [← hx h]
  | [.esquerda, .esquerda] => simp [← hx h]
  | [.esquerda, .direita] => simp [← hx h]
  | [.direita, .esquerda] => simp [← hx h]
  | [.direita, .direita] => cases h
  | .esquerda :: .esquerda :: l :: r =>
    have : mapaDaMansao.em (.esquerda :: .esquerda :: l :: r) = .nulo := by
      cases l <;> exact Sala.em_nulo r
    rw [this] at h
    cases h
  | .esquerda :: .direita :: l :: r =>
    have : mapaDaMansao.em (.esquerda :: .direita :: l :: r) = .nulo := by
      cases l <;> exact Sala.em_nulo r
    rw [this] at h
    cases h
  | .direita :: .esquerda :: l :: r =>
    have : mapaDaMansao.em (.direita :: .esquerda :: l :: r) = .nulo := by
      cases l <;> exact Sala.em_nulo r
    rw [this] at h
    cases h
  | .direita :: .direita :: l :: r =>
    have : mapaDaMansao.em (.direita :: .direita :: l :: r) = .nulo := by
      cases l <;> exact Sala.em_nulo r
    rw [this] at h
    cases h

/-- Started from an ordered listing, every state of a run whose collection is
defined has one. -/
theorem executar_pistas_ordenadas (n : Nat) (s0 s : Estado)
    (h0 : ∀ t, s0.raizPistas = some t →
      List.Pairwise (fun a b => strcmp a b < 0) (exibirPistas t))
    (h : (executar n s0).estado = some s) :
    ∀ t, s.raizPistas = some t →
      List.Pairwise (fun a b => strcmp a b < 0) (exibirPistas t) := by
  refine executar_preserva
    (fun s => ∀ t, s.raizPistas = some t →
      List.Pairwise (fun a b => strcmp a b < 0) (exibirPistas t))
    ?_ n s0 s h0 h
  intro s1 s2 h1 hit t ht
  obtain ⟨_, _, _, _, _, _, hd⟩ := iteracao_campos hit
  rcases hd with ⟨_, _, d3, _⟩ | ⟨c, _, d2, _, _⟩
  · rw [d3] at ht
    exact h1 t ht
  · rw [ht] at d2
    obtain ⟨t1, ht1, hins⟩ := Option.bind_eq_some.mp d2.symm
    exact pairwise_exibirPistas_inserirPista hins (h1 t1 ht1)

/-- In the game of `main`, with a table in which only Adaga among the five
clues of the map resolves to the name `a`, the count for `a` at the end of any
exploration is at most 1 and the verdict is not the confirmed one. -/
theorem contagem_no_maximo_um (cs : Bool) (tab : Tabela) (a : CStr)
    (hvalid : ∀ x ∈ [castical, veneno, adaga, corda, chaveInglesa],
      indiceValido (funcao_hash cs x))
    (hlook : ∀ x ∈ [castical, veneno, adaga, corda, chaveInglesa],
      encontrarSuspeito cs tab x = some (some a) → x = adaga)
    (entrada : CStr) (escolha0 : Fin 256) (n : Nat) (s : Estado)
    (h : explorarSalas mapaDaMansao .nulo entrada escolha0 n = .encerrada s) :
    ∃ t k, s.raizPistas = some t ∧ contarPistasRecursivo cs tab t a 0 = some k ∧ k ≤ 1 ∧
      ∀ k2, verificarSuspeitoFinal cs tab t a ≠ some (.confirmada k2) := by
  unfold explorarSalas at h
  have hest : (executar n (estadoInicial mapaDaMansao .nulo entrada escolha0)).estado =
      some s := by rw [h]; rfl
  have hfit : Sala.pistasCabem mapaDaMansao := by decide
  obtain ⟨t, ht⟩ := executar_colecao_definida n _ s hfit ⟨.nulo, rfl⟩ hest
  have hsort := executar_pistas_ordenadas n _ s
    (fun t0 ht0 => by
      cases ht0
      simp [exibirPistas]) hest t ht
  have hmem : ∀ x ∈ exibirPistas t,
      x ∈ [castical, veneno, adaga, corda, chaveInglesa] := by
    intro x hx
    rcases executar_pistas_do_caminho mapaDaMansao .nulo entrada escolha0 n s hest t ht x hx
      with h0 | ⟨q, _, _, hq⟩
    · simp [exibirPistas] at h0
    · exact pistas_do_mapaDaMansao q x hq
  have hcount := contarPistasRecursivo_validas cs tab t a 0
    (fun p hp => hvalid p (hmem p hp))
  have hle := countP_le_one_of_nodup
    (p := fun p => decide (encontrarSuspeito cs tab p = some (some a)))
    adaga (nodup_of_pairwise_strcmp hsort)
    (fun x hx hp => hlook x (hmem x hx) (by simpa using hp))
  refine ⟨t, _, ht, hcount, by omega, fun k2 hk => ?_⟩
  cases htt : t with
  | nulo =>
    rw [htt] at hk
    cases hk
  | no p e d =>
    rw [htt] at hk hcount hle
    simp only [verificarSuspeitoFinal, hcount, Option.some.injEq] at hk
    split_ifs at hk with hge
    omega

/-- C19: in the game built by `main`, whatever the player types, when the
exploration ends the match count against Coronel Bigode is at most 1 and the
verdict for that name is never the confirmed one; the choices e, e, s reach
the match count 2 against Sr. Mostarda and the choices d, e, s reach the match
count 2 against Dona Branca. -/
theorem coronelBigode_nunca_confirmado (cs : Bool) (escolha0 : Fin 256) :
    ∃ tab, tabelaDoJogo cs = some tab ∧
      (∀ (entrada : CStr) (n : Nat) (s : Estado),
        explorarSalas mapaDaMansao .nulo entrada escolha0 n = .encerrada s →
        ∃ t k, s.raizPistas = some t ∧
          contarPistasRecursivo cs tab t coronelBigode 0 = some k ∧ k ≤ 1 ∧
          ∀ k2, verificarSuspeitoFinal cs tab t coronelBigode ≠ some (.confirmada k2)) ∧
      (∃ s t, explorarSalas mapaDaMansao .nulo entradaEsquerdaEsquerdaSair escolha0 3 =
          .encerrada s ∧ s.raizPistas = some t ∧
        contarPistasRecursivo cs tab t srMostarda 0 = some 2) ∧
      ∃ s t, explorarSalas mapaDaMansao .nulo entradaDireitaEsquerdaSair escolha0 3 =
          .encerrada s ∧ s.raizPistas = some t ∧
        contarPistasRecursivo cs tab t donaBranca 0 = some 2 := by
  cases cs
  · refine ⟨_, rfl, fun entrada n s h => ?_, ⟨_, _, rfl, rfl, rfl⟩, ⟨_, _, rfl, rfl, rfl⟩⟩
    exact contagem_no_maximo_um false _ coronelBigode (by decide) (by decide) entrada
      escolha0 n s h
  · refine ⟨_, rfl, fun entrada n s h => ?_, ⟨_, _, rfl, rfl, rfl⟩, ⟨_, _, rfl, rfl, rfl⟩⟩
    exact contagem_no_maximo_um true _ coronelBigode (by decide) (by decide) entrada
      escolha0 n s h

/-! ## The theorems at concrete inputs

Each theorem below applies one of the theorems above to data of the built-in
game and discharges its hypotheses by evaluation. -/

/-- The calls of `criarSala` in `main` all return, and the rooms wired as
`main` wires them are the map `mapaDaMansao`. -/
theorem montarMapaDaMansao_eq : montarMapaDaMansao = some mapaDaMansao := by
  decide

theorem exibirPistas_estritamente_crescente_witness :
    (∀ c ∈ [corda, adaga, corda, castical], c.length < 50) ∧
    ∃ t, inserirTodas .nulo [corda, adaga, corda, castical] = some t ∧
      List.Pairwise (fun a b => strcmp a b < 0) (exibirPistas t) ∧
      (exibirPistas t).Nodup ∧
      ∀ x, x ∈ exibirPistas t ↔ x ∈ [corda, adaga, corda, castical] :=
  ⟨by decide,
    exibirPistas_estritamente_crescente [corda, adaga, corda, castical] (by decide)⟩

theorem inserirPista_idempotente_witness :
    adaga.length < 50 ∧
    ordenada (.no corda (.no adaga .nulo .nulo) (.no veneno .nulo .nulo)) ∧
    adaga ∈ exibirPistas (.no corda (.no adaga .nulo .nulo) (.no veneno .nulo .nulo)) ∧
    (∃ t1, inserirPista (.no corda .nulo (.no veneno .nulo .nulo)) adaga = some t1 ∧
      inserirPista t1 adaga = some t1) ∧
    inserirPista (.no corda (.no adaga .nulo .nulo) (.no veneno .nulo .nulo)) adaga =
      some (.no corda (.no adaga .nulo .nulo) (.no veneno .nulo .nulo)) :=
  ⟨by decide, by decide, by decide,
    (inserirPista_idempotente (.no corda .nulo (.no veneno .nulo .nulo)) adaga).1
      (by decide),
    (inserirPista_idempotente
      (.no corda (.no adaga .nulo .nulo) (.no veneno .nulo .nulo)) adaga).2.2
      (by decide) (by decide)⟩

theorem exibirPistas_inserirPista_ordenada_witness :
    ordenada (.no corda (.no adaga .nulo .nulo) (.no veneno .nulo .nulo)) ∧
    castical ∉ exibirPistas (.no corda (.no adaga .nulo .nulo) (.no veneno .nulo .nulo)) ∧
    castical.length < 50 ∧
    ∃ t2 l1 l2,
      inserirPista (.no corda (.no adaga .nulo .nulo) (.no veneno .nulo .nulo)) castical =
        some t2 ∧
      exibirPistas (.no corda (.no adaga .nulo .nulo) (.no veneno .nulo .nulo)) =
        l1 ++ l2 ∧
      exibirPistas t2 = l1 ++ castical :: l2 ∧
      (∀ x ∈ l1, strcmp x castical < 0) ∧ (∀ x ∈ l2, strcmp castical x < 0) :=
  ⟨by decide, by decide, by decide,
    (exibirPistas_inserirPista_ordenada
      (.no corda (.no adaga .nulo .nulo) (.no veneno .nulo .nulo)) castical
      (by decide)).2.1 (by decide) (by decide)⟩

theorem encontrarSuspeito_nunca_inserida_witness :
    (∀ op ∈ baseDeConhecimento, insercaoValida true op) ∧
    indiceValido (funcao_hash true dorca) ∧
    (∀ op ∈ baseDeConhecimento, op.1 ≠ dorca) ∧
    funcao_hash true dorca = funcao_hash true corda ∧
    ∃ t, inserirVarias true tabelaVazia baseDeConhecimento = some t ∧
      encontrarSuspeito true t dorca = some none :=
  ⟨by decide, by decide, by decide, by decide,
    encontrarSuspeito_nunca_inserida true baseDeConhecimento dorca (by decide) (by decide)
      (by decide)⟩

theorem encontrarSuspeito_inserida_uma_vez_witness :
    (∀ op ∈ [(castical, srMostarda)] ++ (corda, donaBranca) ::
        [(veneno, srMostarda), (adaga, coronelBigode)], insercaoValida true op) ∧
    (∀ op ∈ [(veneno, srMostarda), (adaga, coronelBigode)], op.1 ≠ corda) ∧
    funcao_hash true veneno = funcao_hash true corda ∧
    ∃ t, inserirVarias true tabelaVazia
        ([(castical, srMostarda)] ++ (corda, donaBranca) ::
          [(veneno, srMostarda), (adaga, coronelBigode)]) = some t ∧
      encontrarSuspeito true t corda = some (some donaBranca) :=
  ⟨by decide, by decide, by decide,
    encontrarSuspeito_inserida_uma_vez true [(castical, srMostarda)]
      [(veneno, srMostarda), (adaga, coronelBigode)] corda donaBranca (by decide)
      (by decide)⟩

theorem encontrarSuspeito_ultima_insercao_witness :
    insercaoValida true (corda, donaBranca) ∧
    (∀ op ∈ [(veneno, srMostarda)], insercaoValida true op) ∧
    insercaoValida true (corda, coronelBigode) ∧
    ∃ t1 t2 t3, inserirNaHash true tabelaVazia corda donaBranca = some t1 ∧
      inserirVarias true t1 [(veneno, srMostarda)] = some t2 ∧
      inserirNaHash true t2 corda coronelBigode = some t3 ∧
      encontrarSuspeito true t3 corda = some (some coronelBigode) ∧
      ∃ j resto, indiceDaTabela (funcao_hash true corda) = some j ∧
        t3 j = { pista := corda, suspeito := coronelBigode } :: resto ∧
        { pista := corda, suspeito := donaBranca } ∈ resto :=
  ⟨by decide, by decide, by decide,
    encontrarSuspeito_ultima_insercao true tabelaVazia [(veneno, srMostarda)] corda
      donaBranca coronelBigode (by decide) (by decide) (by decide)⟩

theorem coronelBigode_nunca_confirmado_witness :
    ∃ tab s, tabelaDoJogo true = some tab ∧
      explorarSalas mapaDaMansao .nulo entradaEsquerdaDireitaSair 0 3 = .encerrada s ∧
      s.raizPistas = some (.no castical (.no adaga .nulo .nulo) .nulo) ∧
      ∃ t k, s.raizPistas = some t ∧
        contarPistasRecursivo true tab t coronelBigode 0 = some k ∧ k ≤ 1 ∧
        ∀ k2, verificarSuspeitoFinal true tab t coronelBigode ≠ some (.confirmada k2) := by
  obtain ⟨tab, htab, huniv, _, _⟩ := coronelBigode_nunca_confirmado true 0
  have hconc : ∃ s, explorarSalas mapaDaMansao .nulo entradaEsquerdaDireitaSair 0 3 =
        .encerrada s ∧
      s.raizPistas = some (.no castical (.no adaga .nulo .nulo) .nulo) :=
    ⟨_, rfl, rfl⟩
  obtain ⟨s, hrun, hcol⟩ := hconc
  exact ⟨tab, s, htab, hrun, hcol, huniv _ 3 s hrun⟩

end DetectiveQuest
